import Mathlib

/-!
Verification development for the Orphan-Drug-Overlap-Tool pipeline.

Python strings are modelled as lists of Unicode code points (`List Nat`);
Python `re.sub`/`re.findall` calls are hand-compiled to scanners with the
leftmost, non-overlapping semantics of the `re` module, specialised to the
concrete patterns appearing in the source.  Similarity scores (Python
floats in [0,100]) are modelled as exact rationals.  The rapidfuzz string
metrics are external library calls, so the matcher is parametric in them
(a `FuzzLib` record); a concrete `realFuzz` instance implementing
rapidfuzz's Indel-based `fuzz.ratio` is supplied for concrete runs.
-/

set_option maxRecDepth 100000

set_option allowUnsafeReducibility true in
attribute [semireducible] Rat.mul Rat.add Rat.sub Rat.div Rat.inv Rat.neg Rat.blt

namespace DrugOverlap

/-- Code-point list of a string literal: the model of a Python `str` value. -/
def S (s : String) : List Nat := s.data.map Char.toNat

/-- Python `\s` (ASCII range): space, tab, newline, carriage return, vertical tab, form feed. -/
def wsB (c : Nat) : Bool := c == 32 || c == 9 || c == 10 || c == 13 || c == 11 || c == 12

/-- ASCII decimal digit. -/
def digitB (c : Nat) : Bool := 48 ≤ c && c ≤ 57

/-- ASCII letter. -/
def alphaB (c : Nat) : Bool := (65 ≤ c && c ≤ 90) || (97 ≤ c && c ≤ 122)

/-- Python regex word character `\w` (ASCII range): letter, digit or underscore. -/
def wordB (c : Nat) : Bool := alphaB c || digitB c || c == 95

/-- ASCII lower-casing of one code point (model of Python `str.lower`). -/
def lowerC (c : Nat) : Nat := if 65 ≤ c ∧ c ≤ 90 then c + 32 else c

/-- Model of Python `str.lower`. -/
def pyLower (s : List Nat) : List Nat := s.map lowerC

/-- Drop trailing whitespace (the right half of Python `str.strip`). -/
def dropTrailWs : List Nat → List Nat
  | [] => []
  | c :: t =>
    let r := dropTrailWs t
    if r = [] ∧ wsB c then [] else c :: r

/-- Model of Python `str.strip()`. -/
def pyStrip (s : List Nat) : List Nat := dropTrailWs (s.dropWhile wsB)

section ThresholdConfig

/-- Model of `matching_config._clamp_percentage`: keep percentages within [0, 100]. -/
def clampPct (v : ℤ) : ℤ := max 0 (min 100 v)

/-- Model of `matching_config.MatchingThresholds`: all fuzzy matching thresholds
derived from a single target percent. -/
structure MatchingThresholds where
  base : ℤ
  quick_compare_floor : ℤ
  salt_check_floor : ℤ
  component_match : ℤ
  component_accept : ℤ
  partial_combo_score_floor : ℤ
  salt_gate : ℤ
  high_gate : ℤ
  medium_gate : ℤ
  indication_loose : ℤ
  indication_medium : ℤ
  indication_strict : ℤ
  indication_base : ℤ
  missing_indication_floor : ℤ
  combination_min_coverage : ℚ
deriving DecidableEq

/-- Model of `matching_config.build_thresholds`.  Python's `target_percent or 0`
is the identity on integers (`0 or 0 == 0`), rendered here as a literal
conditional. -/
def build_thresholds (target_percent : ℤ) : MatchingThresholds :=
  let base := clampPct (if target_percent = 0 then 0 else target_percent)
  { base := base
    quick_compare_floor := clampPct (base - 15)
    salt_check_floor := clampPct (base - 5)
    component_match := clampPct (base + 5)
    component_accept := base
    partial_combo_score_floor := clampPct (base - 5)
    salt_gate := clampPct (base + 13)
    high_gate := clampPct (base + 10)
    medium_gate := clampPct (base + 5)
    indication_loose := clampPct (base - 45)
    indication_medium := clampPct (base - 35)
    indication_strict := clampPct (base - 20)
    indication_base := clampPct (base - 15)
    missing_indication_floor := clampPct (base + 10)
    combination_min_coverage := 1 / 2 }

/-- Modelled from the spec (§3 table, §4.4): every field is the stated offset
from the clamped base, itself clamped into [0,100]; the coverage ratio is the
fixed 0.5. -/
def specThresholds (base_percent : ℤ) : MatchingThresholds :=
  let base := clampPct base_percent
  { base := base
    quick_compare_floor := clampPct (base - 15)
    salt_check_floor := clampPct (base - 5)
    component_match := clampPct (base + 5)
    component_accept := clampPct base
    partial_combo_score_floor := clampPct (base - 5)
    salt_gate := clampPct (base + 13)
    high_gate := clampPct (base + 10)
    medium_gate := clampPct (base + 5)
    indication_loose := clampPct (base - 45)
    indication_medium := clampPct (base - 35)
    indication_strict := clampPct (base - 20)
    indication_base := clampPct (base - 15)
    missing_indication_floor := clampPct (base + 10)
    combination_min_coverage := 1 / 2 }

theorem clampPct_idem (v : ℤ) : clampPct (clampPct v) = clampPct v := by
  unfold clampPct
  rcases le_total 100 v with h | h <;> rcases le_total v 0 with h' | h' <;>
    simp [max_def, min_def] <;> split_ifs <;> omega

theorem clampPct_mono {a b : ℤ} (h : a ≤ b) : clampPct a ≤ clampPct b := by
  unfold clampPct
  simp [max_def, min_def]
  split_ifs <;> omega

theorem clampPct_ite (b : ℤ) :
    clampPct (if b = 0 then 0 else b) = clampPct b := by
  split_ifs with h
  · rw [h]
  · rfl

end ThresholdConfig

/-- C2.  For every integer input, `build_thresholds` returns exactly the profile
prescribed by the spec's derivation table: each integer field is the stated
offset from the clamped base, clamped into [0,100], and the combination
coverage ratio is exactly 0.5. -/
theorem build_thresholds_matches_spec (b : ℤ) :
    build_thresholds b = specThresholds b := by
  simp only [build_thresholds, specThresholds, clampPct_ite, clampPct_idem]

/-- C3.  For base1 < base2, every derived field of `build_thresholds base1` is
at most the corresponding field of `build_thresholds base2`, and the fixed
coverage ratio agrees. -/
theorem build_thresholds_monotone (b1 b2 : ℤ) (h : b1 < b2) :
    (build_thresholds b1).base ≤ (build_thresholds b2).base ∧
    (build_thresholds b1).quick_compare_floor ≤ (build_thresholds b2).quick_compare_floor ∧
    (build_thresholds b1).salt_check_floor ≤ (build_thresholds b2).salt_check_floor ∧
    (build_thresholds b1).component_match ≤ (build_thresholds b2).component_match ∧
    (build_thresholds b1).component_accept ≤ (build_thresholds b2).component_accept ∧
    (build_thresholds b1).partial_combo_score_floor ≤ (build_thresholds b2).partial_combo_score_floor ∧
    (build_thresholds b1).salt_gate ≤ (build_thresholds b2).salt_gate ∧
    (build_thresholds b1).high_gate ≤ (build_thresholds b2).high_gate ∧
    (build_thresholds b1).medium_gate ≤ (build_thresholds b2).medium_gate ∧
    (build_thresholds b1).indication_loose ≤ (build_thresholds b2).indication_loose ∧
    (build_thresholds b1).indication_medium ≤ (build_thresholds b2).indication_medium ∧
    (build_thresholds b1).indication_strict ≤ (build_thresholds b2).indication_strict ∧
    (build_thresholds b1).indication_base ≤ (build_thresholds b2).indication_base ∧
    (build_thresholds b1).missing_indication_floor ≤ (build_thresholds b2).missing_indication_floor ∧
    (build_thresholds b1).combination_min_coverage = (build_thresholds b2).combination_min_coverage := by
  have hb : clampPct (if b1 = 0 then 0 else b1) ≤ clampPct (if b2 = 0 then 0 else b2) := by
    rw [clampPct_ite, clampPct_ite]
    exact clampPct_mono (le_of_lt h)
  unfold build_thresholds
  refine ⟨hb, ?_, ?_, ?_, hb, ?_, ?_, ?_, ?_, ?_, ?_, ?_, ?_, ?_, rfl⟩ <;>
    exact clampPct_mono (by omega)

/-- C3 witness at the concrete pair (80, 90). -/
theorem build_thresholds_monotone_witness :
    (build_thresholds 80).salt_gate ≤ (build_thresholds 90).salt_gate := by
  have h := build_thresholds_monotone 80 90 (by decide)
  exact h.2.2.2.2.2.2.1

section StringScanners

/-- Boolean prefix test on code-point lists. -/
def pfxB : List Nat → List Nat → Bool
  | [], _ => true
  | _ :: _, [] => false
  | a :: u, b :: v => a == b && pfxB u v

/-- Leading `\b` before a word character: the previous character is absent or
not a word character. -/
def bdPrev (prev : Option Nat) : Bool :=
  match prev with
  | none => true
  | some p => !wordB p

/-- Trailing `\b` after a word character: the next character is absent or not a
word character. -/
def bdW (rest : List Nat) : Bool :=
  match rest with
  | [] => true
  | c :: _ => !wordB c

/-- Trailing `\b` after the final character `last` of a match: the word-ness of
`last` and of the next character (end of string counts as non-word) differ. -/
def bdAfter (last : Nat) (rest : List Nat) : Bool :=
  match rest with
  | [] => wordB last
  | c :: _ => wordB last != wordB c

/-- One leftmost-match attempt of `\s*\([^)]+\)` anchored at the head of `s`
(the greedy `\s*` takes the whole whitespace run; `[^)]+` runs to the first
`)`, which must exist with at least one character before it).  Returns the
remainder after the match. -/
def parenMatchAt (s : List Nat) : Option (List Nat) :=
  if (s.dropWhile wsB).head? = some 40 ∧
     ((s.dropWhile wsB).tail.dropWhile (fun c => !(c == 41))).head? = some 41 ∧
     (s.dropWhile wsB).tail.takeWhile (fun c => !(c == 41)) ≠ [] then
    some ((s.dropWhile wsB).tail.dropWhile (fun c => !(c == 41))).tail
  else none

theorem len_dropWhile_le (p : Nat → Bool) (l : List Nat) :
    (l.dropWhile p).length ≤ l.length := by
  induction l with
  | nil => simp [List.dropWhile]
  | cons c t ih =>
    by_cases h : p c <;> simp [List.dropWhile, h] <;> omega

theorem parenMatchAt_lt (s v : List Nat) (h : parenMatchAt s = some v) :
    v.length < s.length := by
  unfold parenMatchAt at h
  split_ifs at h with hc
  · obtain ⟨h1, h2, _⟩ := hc
    have e1 : ((s.dropWhile wsB).tail.dropWhile (fun c => !(c == 41))).tail = v :=
      Option.some.inj h
    have l1 : (s.dropWhile wsB).length ≤ s.length := len_dropWhile_le _ _
    have l0 : 0 < (s.dropWhile wsB).length := by
      cases hx : s.dropWhile wsB with
      | nil => rw [hx] at h1; exact absurd h1 (by simp)
      | cons a b => simp [hx]
    have l2 : ((s.dropWhile wsB).tail).length = (s.dropWhile wsB).length - 1 := by
      simp [List.length_tail]
    have l3 : ((s.dropWhile wsB).tail.dropWhile (fun c => !(c == 41))).length ≤
        ((s.dropWhile wsB).tail).length := len_dropWhile_le _ _
    have l5 : 0 < ((s.dropWhile wsB).tail.dropWhile (fun c => !(c == 41))).length := by
      cases hy : (s.dropWhile wsB).tail.dropWhile (fun c => !(c == 41)) with
      | nil => rw [hy] at h2; exact absurd h2 (by simp)
      | cons a b => simp [hy]
    have l4 : v.length = ((s.dropWhile wsB).tail.dropWhile (fun c => !(c == 41))).length - 1 := by
      rw [← e1]; simp [List.length_tail]
    omega

/-- Global `re.sub(r'\s*\([^)]+\)', '', s)` with leftmost non-overlapping
semantics, fuelled by the string length (each step consumes at least one
character). -/
def subParenF : Nat → List Nat → List Nat
  | 0, s => s
  | _ + 1, [] => []
  | fuel + 1, c :: t =>
    match parenMatchAt (c :: t) with
    | some rest => subParenF fuel rest
    | none => c :: subParenF fuel t

/-- Strip every `\s*\([^)]+\)` segment (the parenthetical-removal sub of
`normalize_drug_name`). -/
def subParen (s : List Nat) : List Nat := subParenF s.length s

/-- One leftmost-match attempt of `\s+WORD\b` anchored at the head of `s`
(the salt-suffix subs of `normalize_drug_name`; the input is already
lower-case, so `re.IGNORECASE` is immaterial). -/
def saltWordMatch (w : List Nat) (s : List Nat) : Option (List Nat) :=
  if s.takeWhile wsB ≠ [] ∧ pfxB w (s.dropWhile wsB) ∧
     bdW ((s.dropWhile wsB).drop w.length) then
    some ((s.dropWhile wsB).drop w.length)
  else none

theorem len_takeWhile_add_dropWhile (p : Nat → Bool) (l : List Nat) :
    (l.takeWhile p).length + (l.dropWhile p).length = l.length := by
  induction l with
  | nil => simp [List.takeWhile, List.dropWhile]
  | cons c t ih =>
    by_cases h : p c <;> simp [List.takeWhile, List.dropWhile, h] <;> omega

theorem saltWordMatch_lt (w s v : List Nat) (h : saltWordMatch w s = some v) :
    v.length < s.length := by
  unfold saltWordMatch at h
  split_ifs at h with hc
  · obtain ⟨h1, -, -⟩ := hc
    have e1 : (s.dropWhile wsB).drop w.length = v := Option.some.inj h
    have hlen := len_takeWhile_add_dropWhile wsB s
    have htwpos : 0 < (s.takeWhile wsB).length := by
      cases hx : s.takeWhile wsB with
      | nil => exact absurd hx h1
      | cons a b => simp [hx]
    have hd : ((s.dropWhile wsB).drop w.length).length ≤ (s.dropWhile wsB).length := by
      simp [List.length_drop]
    rw [e1] at hd
    omega

/-- Global `re.sub(r'\s+WORD\b', '', s)`, fuelled. -/
def subSaltWF (w : List Nat) : Nat → List Nat → List Nat
  | 0, s => s
  | _ + 1, [] => []
  | fuel + 1, c :: t =>
    match saltWordMatch w (c :: t) with
    | some rest => subSaltWF w fuel rest
    | none => c :: subSaltWF w fuel t

/-- Remove every `\s+WORD\b` occurrence for one salt word. -/
def subSaltW (w : List Nat) (s : List Nat) : List Nat := subSaltWF w s.length s

/-- Global `re.sub(r'\s+', ' ', s)`: replace each maximal whitespace run by a
single space, fuelled. -/
def collapseWsF : Nat → List Nat → List Nat
  | 0, s => s
  | _ + 1, [] => []
  | fuel + 1, c :: t =>
    if wsB c then 32 :: collapseWsF fuel (t.dropWhile wsB)
    else c :: collapseWsF fuel t

/-- Replace each maximal whitespace run by a single space. -/
def collapseWs (s : List Nat) : List Nat := collapseWsF s.length s

end StringScanners

section DataLoader

/-- The salt-form suffix vocabulary of `data_loader.normalize_drug_name`, in
source order (each is applied as its own `re.sub(r'\s+word\b', ...)`). -/
def saltForms : List (List Nat) :=
  [S (r"hydrochloride"), S (r"hcl"), S (r"chloride"),
   S (r"sulfate"), S (r"sulphate"), S (r"acetate"),
   S (r"phosphate"), S (r"citrate"), S (r"maleate"),
   S (r"fumarate"), S (r"succinate"), S (r"tartrate"),
   S (r"mesylate"), S (r"besylate"), S (r"tosylate"),
   S (r"bromide"), S (r"iodide"), S (r"sodium"),
   S (r"potassium"), S (r"calcium"), S (r"dihydrate"),
   S (r"monohydrate"), S (r"anhydrous")]

/-- Model of `data_loader.normalize_drug_name`: lower-case and trim, strip
parenthetical segments, strip the salt vocabulary, collapse whitespace. -/
def normalize_drug_name (s : List Nat) : List Nat :=
  if s = [] then []
  else
    let n1 := pyStrip (pyLower s)
    let n2 := pyStrip (subParen n1)
    let n3 := saltForms.foldl (fun acc w => subSaltW w acc) n2
    pyStrip (collapseWs n3)

/-- Leftmost occurrence of `sep` in `s`: the part before the occurrence and
the part after it. -/
def findSub (sep : List Nat) : List Nat → Option (List Nat × List Nat)
  | [] => none
  | c :: t =>
    if pfxB sep (c :: t) then some ([], (c :: t).drop sep.length)
    else
      match findSub sep t with
      | some (p, q) => some (c :: p, q)
      | none => none

/-- Model of Python `str.split(sep)` for a non-empty separator, fuelled. -/
def splitOnSubF (sep : List Nat) : Nat → List Nat → List (List Nat)
  | 0, s => [s]
  | fuel + 1, s =>
    match findSub sep s with
    | none => [s]
    | some (p, q) => p :: splitOnSubF sep fuel q

/-- Model of Python `str.split(sep)` (our separators are all non-empty). -/
def splitOnSub (sep : List Nat) (s : List Nat) : List (List Nat) :=
  splitOnSubF sep s.length s

/-- The combination separators of `extract_active_ingredients`, in source
order. -/
def separators : List (List Nat) :=
  [S (r" & "), S (r" + "), S (r", "), S (r" with "), S (r" and "), S (r"/")]

/-- The cascading split of `extract_active_ingredients`: each separator is
applied to every fragment produced by the previous ones. -/
def splitComponents (lower : List Nat) : List (List Nat) :=
  separators.foldl (fun comps sep => comps.flatMap (fun comp => splitOnSub sep comp)) [lower]

/-- The fragments surviving `[comp.strip() for comp in components if comp.strip()]`. -/
def survivingFrags (lower : List Nat) : List (List Nat) :=
  ((splitComponents lower).map pyStrip).filter (fun c => !c.isEmpty)

/-- The dosage-quantity units of the `\b\d+\s*(mg|g|mcg|ml|%)\b` sub, in
alternation order. -/
def doseUnits : List (List Nat) :=
  [S (r"mg"), S (r"g"), S (r"mcg"), S (r"ml"), S (r"%")]

/-- Try the unit alternatives in order; each must be a prefix and satisfy the
trailing `\b` (for `%`, a non-word character, the boundary demands a following
word character).  Returns the last consumed character and the remainder. -/
def tryUnits : List (List Nat) → List Nat → Option (Nat × List Nat)
  | [], _ => none
  | u :: us, t =>
    if pfxB u t then
      match u.getLast? with
      | some lastc =>
        if bdAfter lastc (t.drop u.length) then some (lastc, t.drop u.length)
        else tryUnits us t
      | none => tryUnits us t
    else tryUnits us t

/-- One attempt of `\b\d+\s*(mg|g|mcg|ml|%)\b` anchored at the head, given the
previous character. -/
def doseMatchAt (prev : Option Nat) (s : List Nat) : Option (Nat × List Nat) :=
  if bdPrev prev then
    if s.takeWhile digitB = [] then none
    else tryUnits doseUnits ((s.dropWhile digitB).dropWhile wsB)
  else none

/-- The dosage-form words of `\b(tablet|capsule|injection|solution)s?\b`, in
alternation order. -/
def formWords : List (List Nat) :=
  [S (r"tablet"), S (r"capsule"), S (r"injection"), S (r"solution")]

/-- Try the form-word alternatives in order, with the greedy optional plural
`s` and its `\b` backtracking behaviour. -/
def tryForms : List (List Nat) → List Nat → Option (Nat × List Nat)
  | [], _ => none
  | w :: ws', t =>
    if pfxB w t then
      match w.getLast? with
      | some lastc =>
        match t.drop w.length with
        | 115 :: t' =>
          if bdAfter 115 t' then some (115, t')
          else tryForms ws' t
        | rest =>
          if bdAfter lastc rest then some (lastc, rest)
          else tryForms ws' t
      | none => tryForms ws' t
    else tryForms ws' t

/-- One attempt of `\b(tablet|capsule|injection|solution)s?\b` anchored at the
head, given the previous character. -/
def formMatchAt (prev : Option Nat) (s : List Nat) : Option (Nat × List Nat) :=
  if bdPrev prev then tryForms formWords s else none

/-- Fuelled scanner for the dose sub (`re.sub` with leftmost non-overlapping
semantics; the previous original character is carried for `\b`). -/
def subDoseF : Nat → Option Nat → List Nat → List Nat
  | 0, _, s => s
  | _ + 1, _, [] => []
  | fuel + 1, prev, c :: t =>
    match doseMatchAt prev (c :: t) with
    | some (lc, rest) => subDoseF fuel (some lc) rest
    | none => c :: subDoseF fuel (some c) t

/-- Model of `re.sub(r'\b\d+\s*(mg|g|mcg|ml|%)\b', '', s)`. -/
def subDose (s : List Nat) : List Nat := subDoseF s.length none s

/-- Fuelled scanner for the dosage-form sub. -/
def subFormF : Nat → Option Nat → List Nat → List Nat
  | 0, _, s => s
  | _ + 1, _, [] => []
  | fuel + 1, prev, c :: t =>
    match formMatchAt prev (c :: t) with
    | some (lc, rest) => subFormF fuel (some lc) rest
    | none => c :: subFormF fuel (some c) t

/-- Model of `re.sub(r'\b(tablet|capsule|injection|solution)s?\b', '', s)`. -/
def subForm (s : List Nat) : List Nat := subFormF s.length none s

/-- Model of `data_loader.extract_active_ingredients`. -/
def extract_active_ingredients (s : List Nat) : List (List Nat) :=
  let lower := pyLower s
  let components := survivingFrags lower
  if 1 < components.length then
    (components.map (fun comp =>
        normalize_drug_name (pyStrip (subForm (subDose comp))))).filter
      (fun n => !n.isEmpty)
  else [normalize_drug_name lower]

end DataLoader

section FuzzPrimitives

/-- One dynamic-programming row of the longest-common-subsequence table. -/
def lcsRowAux (a : Nat) : List Nat → List Nat → Nat → List Nat
  | b :: bs, pdiag :: pj :: prest, left =>
    let cur := if b == a then pdiag + 1 else max pj left
    cur :: lcsRowAux a bs (pj :: prest) cur
  | _, _, _ => []

/-- Longest common subsequence length (row-by-row dynamic programming). -/
def lcsLen (as' bs : List Nat) : Nat :=
  ((as'.foldl (fun prev a => 0 :: lcsRowAux a bs prev 0)
      (List.replicate (bs.length + 1) 0)).getLast?).getD 0

/-- Modelled from the spec (§4.3 step 3, §9): rapidfuzz `fuzz.ratio`, the
Indel-based character ratio `100·(len1+len2-dist)/(len1+len2) =
200·lcs/(len1+len2)`, as an exact rational; two empty strings score 100. -/
def fuzzRatioQ (s1 s2 : List Nat) : ℚ :=
  if s1 = [] ∧ s2 = [] then 100
  else (200 * lcsLen s1 s2 : ℚ) / ((s1.length : ℚ) + (s2.length : ℚ))

/-- Fuelled model of Python `str.split()` (split on whitespace runs, no empty
fragments). -/
def pySplitWsF : Nat → List Nat → List (List Nat)
  | 0, _ => []
  | fuel + 1, s =>
    match s.dropWhile wsB with
    | [] => []
    | c :: u =>
      (c :: u.takeWhile (fun d => !wsB d)) :: pySplitWsF fuel (u.dropWhile (fun d => !wsB d))

/-- Model of Python `str.split()`. -/
def pySplitWs (s : List Nat) : List (List Nat) := pySplitWsF s.length s

/-- Model of `' '.join(...)`. -/
def joinSp (ls : List (List Nat)) : List Nat := List.intercalate [32] ls

/-- Lexicographic comparison of code-point lists (Python string `<`). -/
def lexLeB : List Nat → List Nat → Bool
  | [], _ => true
  | _ :: _, [] => false
  | a :: u, b :: v => if a < b then true else if b < a then false else lexLeB u v

/-- Insertion into a lexicographically sorted token list. -/
def insSorted (x : List Nat) : List (List Nat) → List (List Nat)
  | [] => [x]
  | y :: ys => if lexLeB x y then x :: y :: ys else y :: insSorted x ys

/-- Lexicographic insertion sort of a token list (Python `sorted`). -/
def sortToks (ts : List (List Nat)) : List (List Nat) := ts.foldr insSorted []

/-- Deduplication of a token list (Python `set`; membership is all later code
uses, so the retained order is immaterial). -/
def dedupToks : List (List Nat) → List (List Nat)
  | [] => []
  | x :: xs => if xs.contains x then dedupToks xs else x :: dedupToks xs

/-- Modelled from the spec (§4.3 step 5): rapidfuzz `fuzz.token_sort_ratio` —
sort the whitespace tokens, rejoin, and take the character ratio. -/
def tokenSortRatioQ (s1 s2 : List Nat) : ℚ :=
  fuzzRatioQ (joinSp (sortToks (pySplitWs s1))) (joinSp (sortToks (pySplitWs s2)))

/-- Modelled from the spec (§4.3 step 5, §9): rapidfuzz `fuzz.token_set_ratio`,
a bag-of-words ratio tolerant of one name's tokens being a subset of the
other's (100 when the token sets nest, otherwise the best ratio among the
intersection/difference combinations). -/
def tokenSetRatioQ (s1 s2 : List Nat) : ℚ :=
  let t1 := sortToks (dedupToks (pySplitWs s1))
  let t2 := sortToks (dedupToks (pySplitWs s2))
  let inter := t1.filter (fun x => t2.contains x)
  let d12 := t1.filter (fun x => !t2.contains x)
  let d21 := t2.filter (fun x => !t1.contains x)
  if inter ≠ [] ∧ (d12 = [] ∨ d21 = []) then 100
  else
    let sect := joinSp inter
    let j1 := joinSp (inter ++ d12)
    let j2 := joinSp (inter ++ d21)
    max (fuzzRatioQ j1 j2) (max (fuzzRatioQ sect j1) (fuzzRatioQ sect j2))

/-- The rapidfuzz string metrics used by the matcher.  rapidfuzz is an external
library, so the matcher is parametric in these three functions (spec §9: the
exact edit-distance choice is not load-bearing). -/
structure FuzzLib where
  ratioFn : List Nat → List Nat → ℚ
  tokenSortFn : List Nat → List Nat → ℚ
  tokenSetFn : List Nat → List Nat → ℚ

/-- The concrete metric instance used for concrete runs. -/
def realFuzz : FuzzLib :=
  { ratioFn := fuzzRatioQ, tokenSortFn := tokenSortRatioQ, tokenSetFn := tokenSetRatioQ }

end FuzzPrimitives

section Matcher

/-- The formulation vocabulary of `EnhancedDrugMatcher.formulation_terms`, in
source order; each is applied as `re.sub(rf'\b{term}\b', '', s)`. -/
def formulationTerms : List (List Nat) :=
  [S (r"injection"), S (r"tablet"), S (r"capsule"), S (r"solution"),
   S (r"suspension"), S (r"cream"), S (r"ointment"), S (r"gel"),
   S (r"syrup"), S (r"oral"), S (r"topical"), S (r"intravenous"),
   S (r"iv"), S (r"im"), S (r"subcutaneous"), S (r"sc")]

/-- One attempt of `\b{term}\b` anchored at the head (terms are all-letter
words, so the boundaries reduce to a non-word neighbour on each side). -/
def termMatchAt (w : List Nat) (prev : Option Nat) (s : List Nat) : Option (Nat × List Nat) :=
  if bdPrev prev ∧ pfxB w s ∧ bdW (s.drop w.length) then
    match w.getLast? with
    | some lastc => some (lastc, s.drop w.length)
    | none => none
  else none

/-- Fuelled scanner for one formulation-term sub. -/
def subTermF (w : List Nat) : Nat → Option Nat → List Nat → List Nat
  | 0, _, s => s
  | _ + 1, _, [] => []
  | fuel + 1, prev, c :: t =>
    match termMatchAt w prev (c :: t) with
    | some (lc, rest) => subTermF w fuel (some lc) rest
    | none => c :: subTermF w fuel (some c) t

/-- Model of `re.sub(rf'\b{term}\b', '', s)` for one formulation term. -/
def subTermW (w : List Nat) (s : List Nat) : List Nat := subTermF w s.length none s

/-- The alternatives of the combined salt pattern in
`normalize_for_salt_comparison` (`\s+(hydrochloride|...|anhydrous)`, no
trailing `\b`), in source alternation order. -/
def saltFMAlts : List (List Nat) :=
  [S (r"hydrochloride"), S (r"hcl"), S (r"chloride"), S (r"sulfate"),
   S (r"sulphate"), S (r"acetate"), S (r"acet"), S (r"phosphate"),
   S (r"phos"), S (r"citrate"), S (r"citric acid"), S (r"maleate"),
   S (r"mal"), S (r"fumarate"), S (r"succinate"), S (r"tartrate"),
   S (r"mesylate"), S (r"besylate"), S (r"tosylate"), S (r"bromide"),
   S (r"iodide"), S (r"sodium"), S (r"potassium"), S (r"calcium"),
   S (r"magnesium"), S (r"monohydrate"), S (r"dihydrate"),
   S (r"trihydrate"), S (r"anhydrous")]

/-- First alternative (in order) that is a prefix of `t`; returns the rest. -/
def tryAlts : List (List Nat) → List Nat → Option (List Nat)
  | [], _ => none
  | w :: ws', t => if pfxB w t then some (t.drop w.length) else tryAlts ws' t

/-- One attempt of the combined salt pattern anchored at the head. -/
def saltFMMatchAt (s : List Nat) : Option (List Nat) :=
  if s.takeWhile wsB ≠ [] then tryAlts saltFMAlts (s.dropWhile wsB) else none

/-- Fuelled scanner for the combined salt sub. -/
def subSaltFMF : Nat → List Nat → List Nat
  | 0, s => s
  | _ + 1, [] => []
  | fuel + 1, c :: t =>
    match saltFMMatchAt (c :: t) with
    | some rest => subSaltFMF fuel rest
    | none => c :: subSaltFMF fuel t

/-- Model of the combined `re.sub(salt_pattern, '', s)` of
`normalize_for_salt_comparison`. -/
def subSaltFM (s : List Nat) : List Nat := subSaltFMF s.length s

/-- Model of `EnhancedDrugMatcher.normalize_for_salt_comparison` (the
memoisation cache is semantically transparent for this pure function): lower
and trim, strip formulation terms, strip the combined salt pattern, then
`' '.join(s.split()).strip()`. -/
def normalize_for_salt_comparison (s : List Nat) : List Nat :=
  let n0 := pyStrip (pyLower s)
  let n1 := formulationTerms.foldl (fun acc w => subTermW w acc) n0
  let n2 := subSaltFM n1
  pyStrip (joinSp (pySplitWs n2))

/-- Model of `EnhancedDrugMatcher.calculate_similarity`. -/
def calculate_similarity (fl : FuzzLib) (str1 str2 : List Nat) : ℚ :=
  if str1 = [] ∨ str2 = [] then 0
  else
    let s1l := pyStrip (pyLower str1)
    let s2l := pyStrip (pyLower str2)
    if s1l = s2l then 100
    else
      let quick := fl.ratioFn s1l s2l
      if quick < 70 then quick
      else if 80 ≤ quick ∧ normalize_for_salt_comparison str1 = normalize_for_salt_comparison str2 ∧
          normalize_for_salt_comparison str1 ≠ [] then 98
      else max quick (max (fl.tokenSortFn s1l s2l) (fl.tokenSetFn s1l s2l))

/-- Model of the per-target record assembled in `find_overlaps` from the
prepared FDA dataframe. -/
structure FdaDrug where
  generic_normalized : List Nat
  trade_normalized : List Nat
  generic : List Nat
  trade : List Nat
  indication : List Nat
  approval_date : List Nat
  idx : Nat
deriving DecidableEq

/-- Model of `fuzzy_matcher.MatchResult`. -/
structure MatchResult where
  fda_drug : FdaDrug
  score : ℚ
  match_type : List Nat
  matched_components : Option (List (List Nat))
  total_components : Nat
  component_coverage : ℚ
  confidence_reason : List Nat
deriving DecidableEq

/-- Python `max(scores, key=...)`: the first element with the maximal score. -/
def pickBest (x : ℚ × List Nat) (xs : List (ℚ × List Nat)) : ℚ × List Nat :=
  xs.foldl (fun cur cand => if cur.1 < cand.1 then cand else cur) x

/-- Model of `EnhancedDrugMatcher.match_single_drug`. -/
def match_single_drug (fl : FuzzLib) (th : ℚ) (cdsco_drug : List Nat)
    (fda_list : List FdaDrug) : Option MatchResult :=
  if cdsco_drug = [] then none
  else
    let cn := normalize_drug_name cdsco_drug
    let csn := normalize_for_salt_comparison cdsco_drug
    let best := fda_list.foldl (fun (acc : ℚ × Option (FdaDrug × List Nat)) fd =>
      let generic_score := calculate_similarity fl cn fd.generic_normalized
      let trade_score := calculate_similarity fl cn fd.trade_normalized
      let salt_generic_score := calculate_similarity fl csn (normalize_for_salt_comparison fd.generic)
      let salt_trade_score := calculate_similarity fl csn (normalize_for_salt_comparison fd.trade)
      let m := pickBest (generic_score, S (r"generic"))
        [(trade_score, S (r"trade")),
         (salt_generic_score, if 90 < salt_generic_score then S (r"salt_variant") else S (r"generic")),
         (salt_trade_score, if 90 < salt_trade_score then S (r"salt_variant") else S (r"trade"))]
      if acc.1 < m.1 then (m.1, some (fd, m.2)) else acc) (0, none)
    match best.2 with
    | none => none
    | some (fd, mtype) =>
      if th ≤ best.1 then
        some { fda_drug := fd, score := best.1, match_type := mtype,
               matched_components := none, total_components := 0, component_coverage := 0,
               confidence_reason :=
                 if mtype = S (r"salt_variant") then S (r"Salt form variant of the same drug")
                 else if best.1 = 100 then S (r"Exact name match")
                 else if 95 ≤ best.1 then S (r"Very high similarity")
                 else [] }
      else none

/-- Decimal digits of a natural number as code points. -/
def natStr (n : Nat) : List Nat := (Nat.toDigits 10 n).map Char.toNat

/-- The single-source-against-FDA-combination probe of
`match_combination_drug_enhanced` for one target (the unused
`fda_trade_components` extraction of the source is elided as dead code). -/
def componentHit (fl : FuzzLib) (cdsco_drug cdsco_base : List Nat) (fd : FdaDrug) :
    Option MatchResult :=
  let fda_generic_components := extract_active_ingredients fd.generic
  if 1 < fda_generic_components.length then
    if fda_generic_components.any (fun fda_comp =>
        decide (90 ≤ calculate_similarity fl cdsco_base (normalize_for_salt_comparison fda_comp))) then
      some { fda_drug := fd, score := 95, match_type := S (r"combination_component"),
             matched_components := some [cdsco_drug],
             total_components := fda_generic_components.length,
             component_coverage := 1 / (fda_generic_components.length : ℚ),
             confidence_reason := S (r"Matches component of FDA combination: ") ++ fd.generic }
    else none
  else none

/-- The source-is-a-combination branch of `match_combination_drug_enhanced`:
keep the target with the highest component coverage at or above 0.5. -/
def partialCombo (fl : FuzzLib) (cdsco_components : List (List Nat))
    (fda_list : List FdaDrug) : Option MatchResult :=
  (fda_list.foldl (fun (acc : Option MatchResult × ℚ) fd =>
    let matched := cdsco_components.filter (fun component =>
      decide (85 ≤ max (calculate_similarity fl component fd.generic_normalized)
        (calculate_similarity fl component fd.trade_normalized)))
    let coverage : ℚ := (matched.length : ℚ) / (cdsco_components.length : ℚ)
    if (1 / 2 : ℚ) ≤ coverage ∧ acc.2 < coverage then
      (some { fda_drug := fd, score := 80 + coverage * 15,
              match_type := S (r"partial_combination"),
              matched_components := some matched,
              total_components := cdsco_components.length,
              component_coverage := coverage,
              confidence_reason := S (r"Partial match: ") ++ natStr matched.length ++
                S (r"/") ++ natStr cdsco_components.length ++ S (r" components") }, coverage)
    else acc) (none, 0)).1

/-- The component branches of `match_combination_drug_enhanced` (after the
direct whole-name attempt). -/
def matchCombRest (fl : FuzzLib) (cdsco_drug : List Nat) (comps : List (List Nat))
    (fda_list : List FdaDrug) : Option MatchResult :=
  if comps.length = 1 then
    fda_list.findSome? (componentHit fl cdsco_drug (normalize_for_salt_comparison comps.headI))
  else if 1 < comps.length then partialCombo fl comps fda_list
  else none

/-- Model of `EnhancedDrugMatcher.match_combination_drug_enhanced`. -/
def match_combination_drug_enhanced (fl : FuzzLib) (th : ℚ) (cdsco_drug : List Nat)
    (fda_list : List FdaDrug) : Option MatchResult :=
  let cdsco_components := extract_active_ingredients cdsco_drug
  match match_single_drug fl th cdsco_drug fda_list with
  | some dm =>
    if th ≤ dm.score then some dm
    else matchCombRest fl cdsco_drug cdsco_components fda_list
  | none => matchCombRest fl cdsco_drug cdsco_components fda_list

end Matcher

section IndicationGate

/-- The medical-keyword vocabulary of `verify_match_by_indication`. -/
def medKeywords : List (List Nat) :=
  [S (r"cancer"), S (r"tumor"), S (r"syndrome"), S (r"disease"),
   S (r"disorder"), S (r"infection")]

/-- Case-insensitive prefix test (the term regexes carry `re.IGNORECASE`). -/
def pfxCi : List Nat → List Nat → Bool
  | [], _ => true
  | _ :: _, [] => false
  | a :: u, b :: v => lowerC a == lowerC b && pfxCi u v

/-- First keyword (in alternation order) that is a case-insensitive prefix of
`t` and is followed by the literal `\b`/`\B` pair demanded by the
double-escaped `\\b`; returns its length. -/
def tryKeywordCi : List (List Nat) → List Nat → Option Nat
  | [], _ => none
  | k :: ks, t =>
    if pfxCi k t then
      match t.drop k.length with
      | 92 :: b2 :: _ => if b2 == 98 || b2 == 66 then some k.length else tryKeywordCi ks t
      | _ => tryKeywordCi ks t
    else tryKeywordCi ks t

/-- One attempt of the alternative `\\b(?:cancer|...|infection)\\b` of both
term regexes: in a raw Python string `\\b` is a literal backslash followed by
a literal `b` (`B` under `re.IGNORECASE`), not a word boundary. -/
def brokenKeyMatch (s : List Nat) : Option (List Nat × List Nat) :=
  match s with
  | 92 :: b1 :: t =>
    if b1 == 98 || b1 == 66 then
      match tryKeywordCi medKeywords t with
      | some klen => some (s.take (klen + 4), s.drop (klen + 4))
      | none => none
    else none
  | _ => none

/-- One attempt of `\b[A-Z][a-z]+\b` under `re.IGNORECASE` (any maximal run of
at least two letters delimited by word boundaries). -/
def capWordMatch (prev : Option Nat) (s : List Nat) : Option (List Nat × List Nat) :=
  if bdPrev prev ∧ 2 ≤ (s.takeWhile alphaB).length ∧
      bdW (s.drop (s.takeWhile alphaB).length) then
    some (s.takeWhile alphaB, s.drop (s.takeWhile alphaB).length)
  else none

/-- One attempt of the broken alternative `\\b[A-Z][a-z]+\\b` of the FDA-side
term regex: a literal backslash-`b`, a letter run, another literal
backslash-`b`. -/
def brokenCapMatch (s : List Nat) : Option (List Nat × List Nat) :=
  match s with
  | 92 :: b1 :: t =>
    if b1 == 98 || b1 == 66 then
      if 2 ≤ (t.takeWhile alphaB).length then
        match t.drop (t.takeWhile alphaB).length with
        | 92 :: b2 :: _ =>
          if b2 == 98 || b2 == 66 then
            some (s.take ((t.takeWhile alphaB).length + 4),
                  s.drop ((t.takeWhile alphaB).length + 4))
          else none
        | _ => none
      else none
    else none
  | _ => none

/-- One attempt of the CDSCO-side term pattern
`r'\b[A-Z][a-z]+\b|\\b(?:cancer|...)\\b'` (first alternative is a genuine
word-boundary pattern, second is the literal-backslash slip). -/
def goodTermAt (prev : Option Nat) (s : List Nat) : Option (List Nat × List Nat) :=
  match capWordMatch prev s with
  | some r => some r
  | none => brokenKeyMatch s

/-- One attempt of the FDA-side term pattern
`r'\\b[A-Z][a-z]+\\b|\\b(?:cancer|...)\\b'` (both alternatives demand literal
backslashes). -/
def brokenTermAt (_prev : Option Nat) (s : List Nat) : Option (List Nat × List Nat) :=
  match brokenCapMatch s with
  | some r => some r
  | none => brokenKeyMatch s

/-- Fuelled `re.findall` scanner for a term pattern, carrying the previous
original character for `\b`. -/
def findAllF (m : Option Nat → List Nat → Option (List Nat × List Nat)) :
    Nat → Option Nat → List Nat → List (List Nat)
  | 0, _, _ => []
  | _ + 1, _, [] => []
  | fuel + 1, prev, c :: t =>
    match m prev (c :: t) with
    | some (mt, rest) => mt :: findAllF m fuel mt.getLast? rest
    | none => findAllF m fuel (some c) t

/-- `re.findall` of the CDSCO-side term pattern. -/
def findTermsGood (s : List Nat) : List (List Nat) := findAllF goodTermAt s.length none s

/-- `re.findall` of the FDA-side term pattern. -/
def findTermsBroken (s : List Nat) : List (List Nat) := findAllF brokenTermAt s.length none s

/-- Model of `EnhancedDrugMatcher.verify_match_by_indication`. -/
def verify_match_by_indication (fl : FuzzLib) (cdsco_indication fda_indication : List Nat)
    (drug_match_score : ℚ) : Bool :=
  if cdsco_indication = [] ∨ fda_indication = [] then decide (95 ≤ drug_match_score)
  else
    let indication_threshold : ℚ :=
      if 98 ≤ drug_match_score then 40
      else if 95 ≤ drug_match_score then 50
      else if 90 ≤ drug_match_score then 65
      else 70
    let similarity := calculate_similarity fl cdsco_indication fda_indication
    let cdsco_terms := dedupToks (findTermsGood cdsco_indication)
    let fda_terms := dedupToks (findTermsBroken fda_indication)
    let boosted :=
      if cdsco_terms ≠ [] ∧ fda_terms ≠ [] ∧
          (3 : ℚ) / 10 < ((cdsco_terms.filter (fun x => fda_terms.contains x)).length : ℚ) /
            ((min cdsco_terms.length fda_terms.length : Nat) : ℚ) then
        min 100 (similarity + 10)
      else similarity
    decide (indication_threshold ≤ boosted)

end IndicationGate

section Overlaps

/-- Model of one prepared CDSCO row as consumed by `find_overlaps`. -/
structure CdscoRow where
  drug_name : List Nat
  indication : List Nat
  approval_date : List Nat
deriving DecidableEq

/-- Model of one emitted match dictionary (the conditionally added component
keys become `Option` fields). -/
structure MatchDict where
  cdsco_drug : List Nat
  cdsco_indication : List Nat
  cdsco_approval_date : List Nat
  fda_drug : List Nat
  fda_generic : List Nat
  fda_trade : List Nat
  fda_indication : List Nat
  fda_approval_date : List Nat
  match_score : ℚ
  match_type : List Nat
  confidence_reason : List Nat
  matched_components : Option (List Nat)
  component_coverage : Option (List Nat)
deriving DecidableEq

/-- Round-half-to-even (the rounding of Python's format machinery). -/
def roundHalfEvenQ (q : ℚ) : ℤ :=
  if q - Int.floor q < 1 / 2 then Int.floor q
  else if (1 / 2 : ℚ) < q - Int.floor q then Int.floor q + 1
  else if Int.floor q % 2 = 0 then Int.floor q else Int.floor q + 1

/-- Decimal form of an integer as code points. -/
def intStr (n : ℤ) : List Nat := if n < 0 then 45 :: natStr n.natAbs else natStr n.natAbs

/-- Model of the f-string `f"{coverage:.0%}"`. -/
def formatPct (q : ℚ) : List Nat := intStr (roundHalfEvenQ (q * 100)) ++ [37]

/-- The dictionary built from a surviving `MatchResult` in `find_overlaps`
(lines 398-415): the surfaced `fda_drug` name is the generic name exactly when
the match type is `generic` or `salt_variant`, otherwise the trade name; the
component keys are added only when `matched_components` is truthy. -/
def mkMatchDict (row : CdscoRow) (mr : MatchResult) : MatchDict :=
  { cdsco_drug := row.drug_name
    cdsco_indication := row.indication
    cdsco_approval_date := row.approval_date
    fda_drug := if mr.match_type = S (r"generic") ∨ mr.match_type = S (r"salt_variant")
      then mr.fda_drug.generic else mr.fda_drug.trade
    fda_generic := mr.fda_drug.generic
    fda_trade := mr.fda_drug.trade
    fda_indication := mr.fda_drug.indication
    fda_approval_date := mr.fda_drug.approval_date
    match_score := mr.score
    match_type := mr.match_type
    confidence_reason := mr.confidence_reason
    matched_components :=
      match mr.matched_components with
      | some (c :: cs) => some (List.intercalate (S (r", ")) (c :: cs))
      | _ => none
    component_coverage :=
      match mr.matched_components with
      | some (_ :: _) => some (formatPct mr.component_coverage)
      | _ => none }

/-- The state-independent per-row matching phase of the `find_overlaps` loop:
combination-aware attempt first, then the single-drug fallback. -/
def rowMatchPhase (fl : FuzzLib) (th : ℚ) (fda_list : List FdaDrug) (row : CdscoRow) :
    Option MatchResult :=
  match match_combination_drug_enhanced fl th row.drug_name fda_list with
  | some mr => some mr
  | none => match_single_drug fl th row.drug_name fda_list

/-- The target identity key used for deduplication. -/
def keyOfD (d : MatchDict) : List Nat × List Nat := (d.fda_generic, d.fda_trade)

/-- One iteration of the `find_overlaps` loop over `(matches, seen_fda_drugs)`. -/
def rowStep (fl : FuzzLib) (th : ℚ) (fda_list : List FdaDrug)
    (st : List MatchDict × List (List Nat × List Nat)) (row : CdscoRow) :
    List MatchDict × List (List Nat × List Nat) :=
  if row.drug_name.length < 3 then st
  else
    match rowMatchPhase fl th fda_list row with
    | none => st
    | some mr =>
      if th ≤ mr.score then
        if verify_match_by_indication fl row.indication mr.fda_drug.indication mr.score then
          if (mr.fda_drug.generic, mr.fda_drug.trade) ∈ st.2 then st
          else (st.1 ++ [mkMatchDict row mr], st.2 ++ [(mr.fda_drug.generic, mr.fda_drug.trade)])
        else st
      else st

/-- Model of `EnhancedDrugMatcher.find_overlaps` (progress printing elided;
the FDA index preparation is the identity on our prepared record list). -/
def find_overlaps (fl : FuzzLib) (th : ℚ) (rows : List CdscoRow)
    (fda_list : List FdaDrug) : List MatchDict :=
  (rows.foldl (rowStep fl th fda_list) ([], [])).1

/-- The would-be emitted dictionary of one source row, ignoring the claimed
set: the per-row pipeline (short-name skip, matching phase, threshold check,
indication gate). -/
def rowCandidate (fl : FuzzLib) (th : ℚ) (fda_list : List FdaDrug) (row : CdscoRow) :
    Option MatchDict :=
  if row.drug_name.length < 3 then none
  else
    match rowMatchPhase fl th fda_list row with
    | none => none
    | some mr =>
      if th ≤ mr.score ∧
          verify_match_by_indication fl row.indication mr.fda_drug.indication mr.score then
        some (mkMatchDict row mr)
      else none

end Overlaps

section SpecSide

/-- ASCII upper-case letter. -/
def upperB (c : Nat) : Bool := 65 ≤ c && c ≤ 90

/-- ASCII lower-case letter. -/
def lowcB (c : Nat) : Bool := 97 ≤ c && c ≤ 122

/-- Modelled from the spec (§4.6): one capitalized word `[A-Z][a-z]+` between
genuine word boundaries. -/
def specCapMatch (prev : Option Nat) (s : List Nat) : Option (List Nat × List Nat) :=
  match s with
  | c :: t =>
    if bdPrev prev ∧ upperB c ∧ 1 ≤ (t.takeWhile lowcB).length ∧
        bdW (t.drop (t.takeWhile lowcB).length) then
      some (c :: t.takeWhile lowcB, t.drop (t.takeWhile lowcB).length)
    else none
  | [] => none

/-- Modelled from the spec (§4.6): one occurrence of a medical keyword between
genuine word boundaries (case-insensitive). -/
def specKeyMatch (prev : Option Nat) (s : List Nat) : Option (List Nat × List Nat) :=
  match medKeywords.find? (fun k => pfxCi k s && bdW (s.drop k.length)) with
  | some k => if bdPrev prev then some (s.take k.length, s.drop k.length) else none
  | none => none

/-- Modelled from the spec (§4.6): a term is a capitalized word or a medical
keyword occurrence. -/
def specTermAt (prev : Option Nat) (s : List Nat) : Option (List Nat × List Nat) :=
  match specCapMatch prev s with
  | some r => some r
  | none => specKeyMatch prev s

/-- Modelled from the spec (§4.6): the bag of terms of one indication text. -/
def specTerms (s : List Nat) : List (List Nat) :=
  dedupToks (findAllF specTermAt s.length none s)

/-- Modelled from the spec (§4.6): the indication gate with the term bags the
spec prescribes on BOTH sides (the code's FDA-side extraction diverges from
this; see the C7 analysis). -/
def specIndicationGate (fl : FuzzLib) (cdsco_indication fda_indication : List Nat)
    (drug_match_score : ℚ) : Bool :=
  if cdsco_indication = [] ∨ fda_indication = [] then decide (95 ≤ drug_match_score)
  else
    let indication_threshold : ℚ :=
      if 98 ≤ drug_match_score then 40
      else if 95 ≤ drug_match_score then 50
      else if 90 ≤ drug_match_score then 65
      else 70
    let similarity := calculate_similarity fl cdsco_indication fda_indication
    let cdsco_terms := specTerms cdsco_indication
    let fda_terms := specTerms fda_indication
    let boosted :=
      if cdsco_terms ≠ [] ∧ fda_terms ≠ [] ∧
          (3 : ℚ) / 10 < ((cdsco_terms.filter (fun x => fda_terms.contains x)).length : ℚ) /
            ((min cdsco_terms.length fda_terms.length : Nat) : ℚ) then
        min 100 (similarity + 10)
      else similarity
    decide (indication_threshold ≤ boosted)

end SpecSide

section DedupeSpec

/-- Reference deduplication of a candidate stream against a claimed-key set:
the transparent restatement of the `seen_fda_drugs` bookkeeping that the
first-claim-wins theorems are proved against. -/
def dedupeBySeen : List (List Nat × List Nat) → List MatchDict → List MatchDict
  | _, [] => []
  | seen, d :: ds =>
    if keyOfD d ∈ seen then dedupeBySeen seen ds
    else d :: dedupeBySeen (seen ++ [keyOfD d]) ds

end DedupeSpec

section ThinRel

/-- A step-wise thinning relation: `Thin P s t` holds when `t` arises from `s`
by deleting characters satisfying `P` and replacing characters satisfying `P`
by characters satisfying `P`.  The whitespace-collapsing and
deletion-only rewriting stages of the normalizer are all thinnings. -/
inductive Thin (P : Nat → Prop) : List Nat → List Nat → Prop
  | nil : Thin P [] []
  | keep (c : Nat) (s t : List Nat) : Thin P s t → Thin P (c :: s) (c :: t)
  | drop (c : Nat) (s t : List Nat) : P c → Thin P s t → Thin P (c :: s) t
  | subst (c c' : Nat) (s t : List Nat) : P c → P c' → Thin P s t → Thin P (c :: s) (c' :: t)

/-- A parenthetical match segment somewhere in `t`: `(`, at least one
non-`)` character, then `)` — exactly what `\([^)]+\)` can match. -/
def parenSeg (t : List Nat) : Prop :=
  ∃ a b d, t = a ++ 40 :: (b ++ 41 :: d) ∧ b ≠ [] ∧ ∀ x ∈ b, x ≠ 41

/-- A salt match segment somewhere in `t`: whitespace, the word `w`, then a
word boundary — exactly what `\s+w\b` can match. -/
def saltSeg (w t : List Nat) : Prop :=
  ∃ a r d, t = a ++ r ++ w ++ d ∧ r ≠ [] ∧ (∀ x ∈ r, wsB x) ∧ bdW d = true

/-- Canonical whitespace shape: every whitespace character is a plain space
and no two are adjacent — exactly the strings fixed by the
whitespace-collapsing sub. -/
def GoodWs (s : List Nat) : Prop :=
  (∀ c ∈ s, wsB c = true → c = 32) ∧
  List.Chain' (fun a b => wsB a = false ∨ wsB b = false) s

end ThinRel

section OverlapLemmas

theorem keyOfD_mk (row : CdscoRow) (mr : MatchResult) :
    keyOfD (mkMatchDict row mr) = (mr.fda_drug.generic, mr.fda_drug.trade) := rfl

theorem rowStep_eq_candidate (fl : FuzzLib) (th : ℚ) (fda : List FdaDrug)
    (st : List MatchDict × List (List Nat × List Nat)) (row : CdscoRow) :
    rowStep fl th fda st row =
      match rowCandidate fl th fda row with
      | none => st
      | some d => if keyOfD d ∈ st.2 then st else (st.1 ++ [d], st.2 ++ [keyOfD d]) := by
  unfold rowStep rowCandidate
  by_cases h3 : row.drug_name.length < 3
  · simp [h3]
  · simp only [if_neg h3]
    rcases hm : rowMatchPhase fl th fda row with _ | mr
    · rfl
    · by_cases hs : th ≤ mr.score
      · by_cases hg : verify_match_by_indication fl row.indication mr.fda_drug.indication mr.score
        · simp [hs, hg, keyOfD_mk]
        · simp [hs, hg]
      · simp [hs]

theorem foldl_rowStep_dedupe (fl : FuzzLib) (th : ℚ) (fda : List FdaDrug) :
    ∀ (rows : List CdscoRow) (ms : List MatchDict) (seen : List (List Nat × List Nat)),
    (rows.foldl (rowStep fl th fda) (ms, seen)).1 =
      ms ++ dedupeBySeen seen (rows.filterMap (rowCandidate fl th fda)) := by
  intro rows
  induction rows with
  | nil => intro m s; simp [dedupeBySeen]
  | cons row rows ih =>
    intro m s
    rw [List.foldl_cons, rowStep_eq_candidate]
    rcases hc : rowCandidate fl th fda row with _ | d
    · simp only [List.filterMap_cons, hc]
      exact ih m s
    · simp only [List.filterMap_cons, hc]
      by_cases hmem : keyOfD d ∈ s
      · rw [if_pos hmem, ih m s]
        simp only [dedupeBySeen, if_pos hmem]
      · rw [if_neg hmem, ih (m ++ [d]) (s ++ [keyOfD d])]
        simp only [dedupeBySeen, if_neg hmem]
        simp

theorem dedupe_keys_fresh :
    ∀ (cands : List MatchDict) (seen : List (List Nat × List Nat)),
    ((dedupeBySeen seen cands).map keyOfD).Nodup ∧
    ∀ k ∈ (dedupeBySeen seen cands).map keyOfD, k ∉ seen := by
  intro cands
  induction cands with
  | nil => intro seen; simp [dedupeBySeen]
  | cons d ds ih =>
    intro seen
    by_cases h : keyOfD d ∈ seen
    · simpa [dedupeBySeen, h] using ih seen
    · simp only [dedupeBySeen, if_neg h, List.map_cons, List.nodup_cons]
      refine ⟨⟨?_, ((ih (seen ++ [keyOfD d])).1)⟩, ?_⟩
      · intro hmem
        have := (ih (seen ++ [keyOfD d])).2 _ hmem
        simp at this
      · intro k hk
        rcases List.mem_cons.mp hk with rfl | hk
        · exact h
        · intro hks
          exact (ih (seen ++ [keyOfD d])).2 _ hk (by simp [hks])

theorem dedupe_find_first :
    ∀ (cands : List MatchDict) (seen : List (List Nat × List Nat)) (r : MatchDict),
    r ∈ dedupeBySeen seen cands →
    keyOfD r ∉ seen ∧
      cands.find? (fun d => decide (keyOfD d = keyOfD r)) = some r := by
  intro cands
  induction cands with
  | nil => intro seen r h; simp [dedupeBySeen] at h
  | cons d ds ih =>
    intro seen r hr
    by_cases h : keyOfD d ∈ seen
    · rw [dedupeBySeen, if_pos h] at hr
      obtain ⟨hnot, hfind⟩ := ih seen r hr
      refine ⟨hnot, ?_⟩
      have hne : ¬ keyOfD d = keyOfD r := by
        intro he; exact hnot (he ▸ h)
      simp [List.find?, hne, hfind]
    · rw [dedupeBySeen, if_neg h] at hr
      rcases List.mem_cons.mp hr with rfl | hr
      · exact ⟨h, by simp [List.find?]⟩
      · obtain ⟨hnot, hfind⟩ := ih (seen ++ [keyOfD d]) r hr
        have hne : ¬ keyOfD d = keyOfD r := by
          intro he; exact hnot (by simp [he])
        refine ⟨fun hks => hnot (by simp [hks]), ?_⟩
        simp [List.find?, hne, hfind]

theorem dedupe_complete :
    ∀ (cands : List MatchDict) (seen : List (List Nat × List Nat)) (d : MatchDict),
    d ∈ cands →
    keyOfD d ∈ seen ∨ ∃ r ∈ dedupeBySeen seen cands, keyOfD r = keyOfD d := by
  intro cands
  induction cands with
  | nil => intro seen d h; simp at h
  | cons e ds ih =>
    intro seen d hd
    by_cases h : keyOfD e ∈ seen
    · rw [dedupeBySeen, if_pos h]
      rcases List.mem_cons.mp hd with rfl | hd
      · exact Or.inl h
      · exact ih seen d hd
    · rw [dedupeBySeen, if_neg h]
      rcases List.mem_cons.mp hd with heq | hd
      · exact Or.inr ⟨e, List.mem_cons_self _ _, by rw [heq]⟩
      · rcases ih (seen ++ [keyOfD e]) d hd with hseen | ⟨r, hrmem, hrk⟩
        · rcases List.mem_append.mp hseen with hs | hs
          · exact Or.inl hs
          · simp at hs
            exact Or.inr ⟨e, List.mem_cons_self _ _, hs.symm⟩
        · exact Or.inr ⟨r, List.mem_cons_of_mem _ hrmem, hrk⟩

theorem dedupe_subset :
    ∀ (cands : List MatchDict) (seen : List (List Nat × List Nat)) (r : MatchDict),
    r ∈ dedupeBySeen seen cands → r ∈ cands := by
  intro cands
  induction cands with
  | nil => intro seen r h; simp [dedupeBySeen] at h
  | cons d ds ih =>
    intro seen r hr
    by_cases h : keyOfD d ∈ seen
    · rw [dedupeBySeen, if_pos h] at hr
      exact List.mem_cons_of_mem _ (ih seen r hr)
    · rw [dedupeBySeen, if_neg h] at hr
      rcases List.mem_cons.mp hr with rfl | hr
      · exact List.mem_cons_self _ _
      · exact List.mem_cons_of_mem _ (ih _ r hr)

theorem find_overlaps_eq_dedupe (fl : FuzzLib) (th : ℚ) (rows : List CdscoRow)
    (fda : List FdaDrug) :
    find_overlaps fl th rows fda =
      dedupeBySeen [] (rows.filterMap (rowCandidate fl th fda)) := by
  unfold find_overlaps
  rw [foldl_rowStep_dedupe]
  simp

end OverlapLemmas

/-- C1.  In every run, the emitted records carry pairwise distinct target
identity keys; the record emitted for a key is exactly the first gate-passing,
above-threshold candidate (in source iteration order) with that key — later
claimants are dropped regardless of score — and every candidate's key does get
one record. -/
theorem find_overlaps_first_claim_wins (fl : FuzzLib) (th : ℚ) (rows : List CdscoRow)
    (fda : List FdaDrug) :
    ((find_overlaps fl th rows fda).map keyOfD).Nodup ∧
    (∀ r ∈ find_overlaps fl th rows fda,
      (rows.filterMap (rowCandidate fl th fda)).find?
        (fun d => decide (keyOfD d = keyOfD r)) = some r) ∧
    (∀ d ∈ rows.filterMap (rowCandidate fl th fda),
      ∃ r ∈ find_overlaps fl th rows fda, keyOfD r = keyOfD d) := by
  rw [find_overlaps_eq_dedupe]
  refine ⟨(dedupe_keys_fresh _ _).1, ?_, ?_⟩
  · intro r hr
    exact (dedupe_find_first _ _ r hr).2
  · intro d hd
    rcases dedupe_complete _ [] d hd with h | h
    · simp at h
    · exact h

/-- C1 witness: a concrete two-row run against one target; both rows claim the
same key, the first one's record is emitted and is the `find?`-first
candidate. -/
theorem find_overlaps_first_claim_wins_witness :
    ((find_overlaps realFuzz 85
        [{ drug_name := S (r"aaabbb"), indication := [], approval_date := [] },
         { drug_name := S (r"aaabbb"), indication := [], approval_date := S (r"x2") }]
        [{ generic_normalized := S (r"aaabbb"), trade_normalized := S (r"qq"),
           generic := S (r"aaabbb"), trade := S (r"TT"),
           indication := [], approval_date := [], idx := 0 }]).map keyOfD).Nodup ∧
    ([{ drug_name := S (r"aaabbb"), indication := [], approval_date := ([] : List Nat) },
      { drug_name := S (r"aaabbb"), indication := [], approval_date := S (r"x2") }].filterMap
        (rowCandidate realFuzz 85
          [{ generic_normalized := S (r"aaabbb"), trade_normalized := S (r"qq"),
             generic := S (r"aaabbb"), trade := S (r"TT"),
             indication := [], approval_date := [], idx := 0 }])).find?
      (fun d => decide (keyOfD d =
        keyOfD (mkMatchDict
          { drug_name := S (r"aaabbb"), indication := [], approval_date := [] }
          { fda_drug := { generic_normalized := S (r"aaabbb"), trade_normalized := S (r"qq"),
                          generic := S (r"aaabbb"), trade := S (r"TT"),
                          indication := [], approval_date := [], idx := 0 },
            score := 100, match_type := S (r"generic"), matched_components := none,
            total_components := 0, component_coverage := 0,
            confidence_reason := S (r"Exact name match") }))) =
      some (mkMatchDict
        { drug_name := S (r"aaabbb"), indication := [], approval_date := [] }
        { fda_drug := { generic_normalized := S (r"aaabbb"), trade_normalized := S (r"qq"),
                        generic := S (r"aaabbb"), trade := S (r"TT"),
                        indication := [], approval_date := [], idx := 0 },
          score := 100, match_type := S (r"generic"), matched_components := none,
          total_components := 0, component_coverage := 0,
          confidence_reason := S (r"Exact name match") }) :=
  ⟨(find_overlaps_first_claim_wins realFuzz 85 _ _).1,
   (find_overlaps_first_claim_wins realFuzz 85 _ _).2.1 _ (by decide)⟩

/-- C4.  Whenever both inputs are non-empty, differ after lower-casing and
trimming, the cheap ratio is at or above the salt-check floor 80 (base 85 − 5),
and salt normalization maps both to the same non-empty string,
`calculate_similarity` returns the fixed salt-variant constant 98, strictly
below 100. -/
theorem calculate_similarity_salt_variant (fl : FuzzLib) (s1 s2 : List Nat)
    (h1 : s1 ≠ []) (h2 : s2 ≠ [])
    (hne : pyStrip (pyLower s1) ≠ pyStrip (pyLower s2))
    (hq : 80 ≤ fl.ratioFn (pyStrip (pyLower s1)) (pyStrip (pyLower s2)))
    (hsalt : normalize_for_salt_comparison s1 = normalize_for_salt_comparison s2)
    (hsne : normalize_for_salt_comparison s1 ≠ []) :
    calculate_similarity fl s1 s2 = 98 ∧ (98 : ℚ) < 100 := by
  refine ⟨?_, by norm_num⟩
  have hor : ¬(s1 = [] ∨ s2 = []) := by
    intro h; rcases h with h | h
    · exact h1 h
    · exact h2 h
  have h70 : ¬ fl.ratioFn (pyStrip (pyLower s1)) (pyStrip (pyLower s2)) < 70 := by
    intro h; linarith
  simp only [calculate_similarity, if_neg hor, if_neg hne, if_neg h70]
  exact if_pos ⟨hq, hsalt, hsne⟩

/-- C4 witness: "metformin hcl" against "metformin" with the concrete metric
(ratio 1800/22 ≥ 80). -/
theorem calculate_similarity_salt_variant_witness :
    calculate_similarity realFuzz (S (r"metformin hcl")) (S (r"metformin")) = 98 ∧
      (98 : ℚ) < 100 :=
  calculate_similarity_salt_variant realFuzz (S (r"metformin hcl")) (S (r"metformin"))
    (by decide) (by decide) (by decide) (by decide) (by decide) (by decide)

/-- C5 counterexample: a combination name both of whose components are dosage
form words is mapped to the empty list, refuting "never empty". -/
theorem extract_active_ingredients_empty_cex :
    extract_active_ingredients (S (r"tablet & capsule")) = [] := by decide

/-- C5 as amended.  Non-combination names (at most one surviving fragment)
yield exactly the singleton with the normalized whole name; combination names
yield only non-empty cleaned components, but possibly fewer than two of them —
the list can even be empty. -/
theorem extract_active_ingredients_amended (s : List Nat) :
    ((survivingFrags (pyLower s)).length ≤ 1 →
      extract_active_ingredients s = [normalize_drug_name (pyLower s)]) ∧
    (1 < (survivingFrags (pyLower s)).length →
      ∀ c ∈ extract_active_ingredients s, c ≠ []) := by
  constructor
  · intro h
    unfold extract_active_ingredients
    rw [if_neg (by omega)]
  · intro h c hc
    unfold extract_active_ingredients at hc
    rw [if_pos h] at hc
    have := List.of_mem_filter hc
    simpa using this

/-- C5 witness: a plain single-ingredient name yields the singleton of its
normalization. -/
theorem extract_active_ingredients_amended_witness :
    extract_active_ingredients (S (r"paracetamol")) =
      [normalize_drug_name (pyLower (S (r"paracetamol")))] :=
  (extract_active_ingredients_amended (S (r"paracetamol"))).1 (by decide)

section SurfacedName

theorem rowCandidate_mk (fl : FuzzLib) (th : ℚ) (fda : List FdaDrug) (row : CdscoRow)
    (d : MatchDict) (h : rowCandidate fl th fda row = some d) :
    ∃ mr, d = mkMatchDict row mr := by
  unfold rowCandidate at h
  by_cases h3 : row.drug_name.length < 3
  · rw [if_pos h3] at h
    exact absurd h (by simp)
  · rw [if_neg h3] at h
    rcases hm : rowMatchPhase fl th fda row with _ | mr <;> rw [hm] at h
    · exact absurd h (by simp)
    · have h' : (if th ≤ mr.score ∧
          verify_match_by_indication fl row.indication mr.fda_drug.indication mr.score = true
          then some (mkMatchDict row mr) else none) = some d := h
      split_ifs at h'
      exact ⟨mr, (Option.some.inj h').symm⟩

theorem mkMatchDict_fda_drug (row : CdscoRow) (mr : MatchResult) :
    ((mkMatchDict row mr).match_type = S (r"generic") ∨
      (mkMatchDict row mr).match_type = S (r"salt_variant") →
      (mkMatchDict row mr).fda_drug = (mkMatchDict row mr).fda_generic) ∧
    (¬((mkMatchDict row mr).match_type = S (r"generic") ∨
      (mkMatchDict row mr).match_type = S (r"salt_variant")) →
      (mkMatchDict row mr).fda_drug = (mkMatchDict row mr).fda_trade) := by
  unfold mkMatchDict
  by_cases h : mr.match_type = S (r"generic") ∨ mr.match_type = S (r"salt_variant") <;>
    simp [h]

end SurfacedName

/-- C6 as amended.  In every emitted record the surfaced matched-name equals
the target's generic name exactly when the match type is `generic` or
`salt_variant`; for every other type — `trade`, but also
`combination_component` and `partial_combination` — it equals the target's
trade name. -/
theorem find_overlaps_surfaced_name (fl : FuzzLib) (th : ℚ) (rows : List CdscoRow)
    (fda : List FdaDrug) :
    ∀ r ∈ find_overlaps fl th rows fda,
      (r.match_type = S (r"generic") ∨ r.match_type = S (r"salt_variant") →
        r.fda_drug = r.fda_generic) ∧
      (¬(r.match_type = S (r"generic") ∨ r.match_type = S (r"salt_variant")) →
        r.fda_drug = r.fda_trade) := by
  intro r hr
  rw [find_overlaps_eq_dedupe] at hr
  have hc := dedupe_subset _ [] r hr
  obtain ⟨row, hrow, hcand⟩ := List.mem_filterMap.mp hc
  obtain ⟨mr, rfl⟩ := rowCandidate_mk fl th fda row r hcand
  exact mkMatchDict_fda_drug row mr

/-- C6 counterexample: a concrete run whose only record has type
`combination_component` and surfaces the target's trade name ("zzzzz"), not
its generic name ("vvvvv & abcde"). -/
theorem find_overlaps_surfaced_name_cex :
    (find_overlaps realFuzz 85
        [{ drug_name := S (r"abcde"), indication := [], approval_date := [] }]
        [{ generic_normalized := S (r"vvvvv & abcde"), trade_normalized := S (r"zzzzz"),
           generic := S (r"vvvvv & abcde"), trade := S (r"zzzzz"),
           indication := [], approval_date := [], idx := 0 }]).map
      (fun d => (d.match_type, d.fda_drug, d.fda_generic)) =
    [(S (r"combination_component"), S (r"zzzzz"), S (r"vvvvv & abcde"))] := by decide

/-- C6 witness: a concrete `generic`-type record surfaces the generic name. -/
theorem find_overlaps_surfaced_name_witness :
    (mkMatchDict
      { drug_name := S (r"zidovudine"), indication := [], approval_date := [] }
      { fda_drug := { generic_normalized := S (r"zidovudine"), trade_normalized := S (r"rr"),
                      generic := S (r"zidovudine"), trade := S (r"Retrovir"),
                      indication := [], approval_date := [], idx := 0 },
        score := 100, match_type := S (r"generic"), matched_components := none,
        total_components := 0, component_coverage := 0,
        confidence_reason := S (r"Exact name match") }).fda_drug =
    (mkMatchDict
      { drug_name := S (r"zidovudine"), indication := [], approval_date := [] }
      { fda_drug := { generic_normalized := S (r"zidovudine"), trade_normalized := S (r"rr"),
                      generic := S (r"zidovudine"), trade := S (r"Retrovir"),
                      indication := [], approval_date := [], idx := 0 },
        score := 100, match_type := S (r"generic"), matched_components := none,
        total_components := 0, component_coverage := 0,
        confidence_reason := S (r"Exact name match") }).fda_generic :=
  ((find_overlaps_surfaced_name realFuzz 85
      [{ drug_name := S (r"zidovudine"), indication := [], approval_date := [] }]
      [{ generic_normalized := S (r"zidovudine"), trade_normalized := S (r"rr"),
         generic := S (r"zidovudine"), trade := S (r"Retrovir"),
         indication := [], approval_date := [], idx := 0 }]) _ (by decide)).1
    (Or.inl rfl)

/-- C7.  The code diverges from the claim: for the concrete pair
"Melanoma Aaaa" / "Melanoma Bbbbb" at name score 85 the spec's term bags are
both non-empty with overlap 1/2 > 0.3, so the claimed gate boosts 1800/27 by
+10 and accepts against threshold 70; the code's FDA-side extraction demands
literal backslashes, finds no terms, never boosts, and rejects. -/
theorem verify_match_no_boost_cex :
    verify_match_by_indication realFuzz (S (r"Melanoma Aaaa")) (S (r"Melanoma Bbbbb")) 85 =
      false ∧
    specIndicationGate realFuzz (S (r"Melanoma Aaaa")) (S (r"Melanoma Bbbbb")) 85 = true :=
  ⟨by decide, by decide⟩

/-- C9.  A source record whose raw name is shorter than 3 characters is
skipped: removing it from any position of the source collection leaves the
output unchanged, and the surrounding records are processed exactly as
before. -/
theorem find_overlaps_skips_short_names (fl : FuzzLib) (th : ℚ) (fda : List FdaDrug)
    (rows1 rows2 : List CdscoRow) (r : CdscoRow) (h : r.drug_name.length < 3) :
    find_overlaps fl th (rows1 ++ r :: rows2) fda =
      find_overlaps fl th (rows1 ++ rows2) fda := by
  unfold find_overlaps
  rw [List.foldl_append, List.foldl_append, List.foldl_cons]
  have hstep : rowStep fl th fda (List.foldl (rowStep fl th fda) ([], []) rows1) r =
      List.foldl (rowStep fl th fda) ([], []) rows1 := by
    unfold rowStep
    rw [if_pos h]
  rw [hstep]

/-- C9 witness: a two-character name in a singleton run behaves like the empty
run. -/
theorem find_overlaps_skips_short_names_witness :
    find_overlaps realFuzz 85
        [{ drug_name := S (r"ab"), indication := [], approval_date := [] }] [] =
      find_overlaps realFuzz 85 [] [] :=
  find_overlaps_skips_short_names realFuzz 85 [] [] []
    { drug_name := S (r"ab"), indication := [], approval_date := [] } (by decide)

/-- C10.  When a row's candidate is rejected by the indication gate, the loop
state — emitted matches AND the claimed-target key set — is left unchanged, so
the row might as well be absent and a later row can still claim the same
target. -/
theorem gate_rejection_leaves_claims_unchanged (fl : FuzzLib) (th : ℚ)
    (fda : List FdaDrug) (row : CdscoRow) (mr : MatchResult)
    (hm : rowMatchPhase fl th fda row = some mr)
    (hs : th ≤ mr.score)
    (hg : verify_match_by_indication fl row.indication mr.fda_drug.indication mr.score
      = false) :
    (∀ st, rowStep fl th fda st row = st) ∧
    (∀ rows1 rows2, (List.foldl (rowStep fl th fda) ([], []) (rows1 ++ row :: rows2)).1 =
      (List.foldl (rowStep fl th fda) ([], []) (rows1 ++ rows2)).1) := by
  have hstep : ∀ st, rowStep fl th fda st row = st := by
    intro st
    unfold rowStep
    by_cases h3 : row.drug_name.length < 3
    · rw [if_pos h3]
    · rw [if_neg h3, hm]
      simp [hs, hg]
  refine ⟨hstep, ?_⟩
  intro rows1 rows2
  rw [List.foldl_append, List.foldl_append, List.foldl_cons, hstep]

section NormalizerBasics

theorem lowerC_eq_ite (c : Nat) : lowerC c = if 65 ≤ c ∧ c ≤ 90 then c + 32 else c := rfl

theorem lowerC_idem (c : Nat) : lowerC (lowerC c) = lowerC c := by
  by_cases h1 : 65 ≤ c ∧ c ≤ 90
  · rw [lowerC_eq_ite c, if_pos h1, lowerC_eq_ite, if_neg (by omega)]
  · have h : lowerC c = c := if_neg h1
    rw [h]
    exact h

theorem wsB_not_word {c : Nat} (h : wsB c = true) : wordB c = false := by
  unfold wsB at h
  simp only [Bool.or_eq_true, beq_iff_eq] at h
  rcases h with ((((rfl | rfl) | rfl) | rfl) | rfl) | rfl <;> decide

theorem lowerC_32 : lowerC 32 = 32 := by decide

theorem mem_dropTrailWs {c : Nat} : ∀ {s : List Nat}, c ∈ dropTrailWs s → c ∈ s := by
  intro s
  induction s with
  | nil => simp [dropTrailWs]
  | cons a t ih =>
    intro h
    rw [dropTrailWs] at h
    split_ifs at h with hc
    · simp at h
    · rcases List.mem_cons.mp h with rfl | h
      · exact List.mem_cons_self _ _
      · exact List.mem_cons_of_mem _ (ih h)

theorem mem_pyStrip {c : Nat} {s : List Nat} (h : c ∈ pyStrip s) : c ∈ s :=
  (List.dropWhile_suffix wsB).mem (mem_dropTrailWs h)

theorem parenMatchAt_suffix {s v : List Nat} (h : parenMatchAt s = some v) : v <:+ s := by
  unfold parenMatchAt at h
  split_ifs at h with hc
  · have e1 := Option.some.inj h
    subst e1
    exact (((List.tail_suffix _).trans (List.dropWhile_suffix _)).trans
      (List.tail_suffix _)).trans (List.dropWhile_suffix wsB)

theorem saltWordMatch_suffix {w s v : List Nat} (h : saltWordMatch w s = some v) : v <:+ s := by
  unfold saltWordMatch at h
  split_ifs at h with hc
  · have e1 := Option.some.inj h
    subst e1
    exact (List.drop_suffix _ _).trans (List.dropWhile_suffix wsB)

theorem mem_subParenF {c : Nat} : ∀ {fuel : Nat} {s : List Nat}, c ∈ subParenF fuel s → c ∈ s := by
  intro fuel
  induction fuel with
  | zero => intro s h; exact h
  | succ fuel ih =>
    intro s h
    match s with
    | [] => exact h
    | a :: t =>
      rw [subParenF] at h
      rcases hm : parenMatchAt (a :: t) with _ | rest <;> rw [hm] at h
      · rcases List.mem_cons.mp h with rfl | h
        · exact List.mem_cons_self _ _
        · exact List.mem_cons_of_mem _ (ih h)
      · exact (parenMatchAt_suffix hm).mem (ih h)

theorem mem_subSaltWF {w : List Nat} {c : Nat} :
    ∀ {fuel : Nat} {s : List Nat}, c ∈ subSaltWF w fuel s → c ∈ s := by
  intro fuel
  induction fuel with
  | zero => intro s h; exact h
  | succ fuel ih =>
    intro s h
    match s with
    | [] => exact h
    | a :: t =>
      rw [subSaltWF] at h
      rcases hm : saltWordMatch w (a :: t) with _ | rest <;> rw [hm] at h
      · rcases List.mem_cons.mp h with rfl | h
        · exact List.mem_cons_self _ _
        · exact List.mem_cons_of_mem _ (ih h)
      · exact (saltWordMatch_suffix hm).mem (ih h)

theorem mem_collapseWsF {c : Nat} :
    ∀ {fuel : Nat} {s : List Nat}, c ∈ collapseWsF fuel s → c ∈ s ∨ c = 32 := by
  intro fuel
  induction fuel with
  | zero => intro s h; exact Or.inl h
  | succ fuel ih =>
    intro s h
    match s with
    | [] => exact Or.inl h
    | a :: t =>
      rw [collapseWsF] at h
      split_ifs at h with hws
      · rcases List.mem_cons.mp h with rfl | h
        · exact Or.inr rfl
        · rcases ih h with h | h
          · exact Or.inl (List.mem_cons_of_mem _ ((List.dropWhile_suffix wsB).mem h))
          · exact Or.inr h
      · rcases List.mem_cons.mp h with rfl | h
        · exact Or.inl (List.mem_cons_self _ _)
        · rcases ih h with h | h
          · exact Or.inl (List.mem_cons_of_mem _ h)
          · exact Or.inr h

theorem dropTrailWs_idem : ∀ (s : List Nat), dropTrailWs (dropTrailWs s) = dropTrailWs s := by
  intro s
  induction s with
  | nil => simp [dropTrailWs]
  | cons c t ih =>
    rw [dropTrailWs]
    split_ifs with hc
    · simp [dropTrailWs]
    · rw [dropTrailWs, ih]
      rw [if_neg hc]

theorem dropTrailWs_head_cases (c : Nat) (t : List Nat) :
    dropTrailWs (c :: t) = [] ∨ ∃ r, dropTrailWs (c :: t) = c :: r := by
  rw [dropTrailWs]
  split_ifs with hc
  · exact Or.inl rfl
  · exact Or.inr ⟨_, rfl⟩

theorem dropWhile_head_not {p : Nat → Bool} {s : List Nat} {c : Nat} {t : List Nat}
    (h : s.dropWhile p = c :: t) : p c = false := by
  have := List.head?_dropWhile_not p s
  rw [h] at this
  simpa using this

theorem pyStrip_idem (s : List Nat) : pyStrip (pyStrip s) = pyStrip s := by
  unfold pyStrip
  have h1 : (dropTrailWs (s.dropWhile wsB)).dropWhile wsB = dropTrailWs (s.dropWhile wsB) := by
    rcases hd : s.dropWhile wsB with _ | ⟨c, t⟩
    · simp [dropTrailWs, List.dropWhile]
    · rcases dropTrailWs_head_cases c t with h | ⟨r, h⟩
      · simp [h, List.dropWhile]
      · have hc := dropWhile_head_not hd
        rw [h, List.dropWhile_cons, if_neg (by rw [hc]; exact Bool.false_ne_true)]
  rw [h1, dropTrailWs_idem]

theorem pfxB_eq_append : ∀ {w t : List Nat}, pfxB w t = true → t = w ++ t.drop w.length := by
  intro w
  induction w with
  | nil => intro t _; simp
  | cons a u ih =>
    intro t h
    match t with
    | [] => exact absurd h (by simp [pfxB])
    | b :: v =>
      rw [pfxB, Bool.and_eq_true, beq_iff_eq] at h
      obtain ⟨rfl, h2⟩ := h
      simpa using ih h2

theorem thin_refl (P : Nat → Prop) : ∀ s, Thin P s s := by
  intro s
  induction s with
  | nil => exact Thin.nil
  | cons c t ih => exact Thin.keep c t t ih

theorem thin_all_drop {P : Nat → Prop} : ∀ {t : List Nat}, (∀ c ∈ t, P c) → Thin P t [] := by
  intro t
  induction t with
  | nil => intro _; exact Thin.nil
  | cons c u ih =>
    intro h
    exact Thin.drop c u [] (h c (List.mem_cons_self _ _))
      (ih fun x hx => h x (List.mem_cons_of_mem _ hx))

theorem thin_drop_front {P : Nat → Prop} :
    ∀ {u v t : List Nat}, (∀ c ∈ u, P c) → Thin P v t → Thin P (u ++ v) t := by
  intro u
  induction u with
  | nil => intro v t _ h; exact h
  | cons c u' ih =>
    intro v t hu h
    exact Thin.drop c (u' ++ v) t (hu c (List.mem_cons_self _ _))
      (ih (fun x hx => hu x (List.mem_cons_of_mem _ hx)) h)

theorem thin_dropWhile {P : Nat → Prop} (p : Nat → Bool) (hp : ∀ c, p c = true → P c) :
    ∀ s : List Nat, Thin P s (s.dropWhile p) := by
  intro s
  induction s with
  | nil => exact Thin.nil
  | cons c t ih =>
    rw [List.dropWhile_cons]
    split_ifs with h
    · exact Thin.drop c t _ (hp c h) ih
    · exact Thin.keep c t _ (thin_refl P t)

theorem dropTrailWs_nil_all_ws : ∀ {t : List Nat}, dropTrailWs t = [] → ∀ c ∈ t, wsB c = true := by
  intro t
  induction t with
  | nil => intro _ c hc; simp at hc
  | cons a u ih =>
    intro h c hc
    rw [dropTrailWs] at h
    split_ifs at h with hcond
    · rcases List.mem_cons.mp hc with rfl | hc
      · exact hcond.2
      · exact ih hcond.1 c hc

theorem thin_dropTrailWs : ∀ s : List Nat, Thin (fun c => wsB c = true) s (dropTrailWs s) := by
  intro s
  induction s with
  | nil => exact Thin.nil
  | cons c t ih =>
    rw [dropTrailWs]
    split_ifs with h
    · exact Thin.drop c t [] h.2 (thin_all_drop (dropTrailWs_nil_all_ws h.1))
    · exact Thin.keep c t _ ih

theorem thin_nil_inv {P : Nat → Prop} : ∀ {c : List Nat}, Thin P [] c → c = [] := by
  intro c h
  cases h
  rfl

theorem Thin.transfer {P : Nat → Prop} :
    ∀ {a b : List Nat}, Thin P a b → ∀ {c : List Nat}, Thin P b c → Thin P a c := by
  intro a b hab
  induction hab with
  | nil =>
    intro c hbc
    rw [thin_nil_inv hbc]
    exact Thin.nil
  | keep c0 s t _ ih =>
    intro c hbc
    cases hbc with
    | keep _ _ u h2 => exact Thin.keep c0 s u (ih h2)
    | drop _ _ _ hp h2 => exact Thin.drop c0 s _ hp (ih h2)
    | subst _ c' _ u hp hp' h2 => exact Thin.subst c0 c' s u hp hp' (ih h2)
  | drop c0 s t hp _ ih =>
    intro c hbc
    exact Thin.drop c0 s c hp (ih hbc)
  | subst c0 c0' s t hp hp' _ ih =>
    intro c hbc
    cases hbc with
    | keep _ _ u h2 => exact Thin.subst c0 c0' s u hp hp' (ih h2)
    | drop _ _ _ hq h2 => exact Thin.drop c0 s _ hp (ih h2)
    | subst _ c'' _ u hq hq' h2 => exact Thin.subst c0 c'' s u hp hq' (ih h2)

theorem thin_pyStrip : ∀ s : List Nat, Thin (fun c => wsB c = true) s (pyStrip s) := by
  intro s
  exact Thin.transfer (thin_dropWhile wsB (fun _ h => h) s) (thin_dropTrailWs _)

theorem thin_collapseWsF : ∀ (fuel : Nat) (s : List Nat),
    Thin (fun c => wsB c = true) s (collapseWsF fuel s) := by
  intro fuel
  induction fuel with
  | zero => intro s; exact thin_refl _ s
  | succ fuel ih =>
    intro s
    match s with
    | [] => exact Thin.nil
    | c :: t =>
      rw [collapseWsF]
      split_ifs with h
      · exact Thin.subst c 32 t _ h (by decide)
          (Thin.transfer (thin_dropWhile wsB (fun _ h => h) t) (ih (t.dropWhile wsB)))
      · exact Thin.keep c t _ (ih t)

theorem saltWordMatch_decomp {w s v : List Nat} (h : saltWordMatch w s = some v) :
    s = s.takeWhile wsB ++ (w ++ v) ∧ s.takeWhile wsB ≠ [] ∧ bdW v = true := by
  unfold saltWordMatch at h
  split_ifs at h with hc
  · obtain ⟨h1, h2, h3⟩ := hc
    have e1 := Option.some.inj h
    refine ⟨?_, h1, e1 ▸ h3⟩
    conv_lhs => rw [← List.takeWhile_append_dropWhile (p := wsB) (l := s)]
    rw [pfxB_eq_append h2, e1]

theorem thin_subSaltWF {P : Nat → Prop} {w : List Nat}
    (hws : ∀ c, wsB c = true → P c) (hw : ∀ c ∈ w, P c) :
    ∀ (fuel : Nat) (s : List Nat), Thin P s (subSaltWF w fuel s) := by
  intro fuel
  induction fuel with
  | zero => intro s; exact thin_refl _ s
  | succ fuel ih =>
    intro s
    match s with
    | [] => exact Thin.nil
    | c :: t =>
      rw [subSaltWF]
      rcases hm : saltWordMatch w (c :: t) with _ | rest
      · exact Thin.keep c t _ (ih t)
      · obtain ⟨heq, -, -⟩ := saltWordMatch_decomp hm
        rw [heq]
        refine thin_drop_front ?_ (thin_drop_front hw (ih rest))
        intro x hx
        exact hws x (List.mem_takeWhile_imp hx)

theorem parenSeg_nil : ¬ parenSeg [] := by
  rintro ⟨a, b, d, heq, -, -⟩
  have : (40 : Nat) ∈ ([] : List Nat) := by
    rw [heq]; simp
  simp at this

theorem parenSeg_cons (c : Nat) {u : List Nat} (h : parenSeg u) : parenSeg (c :: u) := by
  obtain ⟨a, b, d, heq, hb, hnb⟩ := h
  exact ⟨c :: a, b, d, by rw [heq]; rfl, hb, hnb⟩

theorem parenSeg_cons_elim {x : Nat} {u : List Nat} (h : parenSeg (x :: u)) :
    (x = 40 ∧ ∃ b d, u = b ++ 41 :: d ∧ b ≠ [] ∧ ∀ y ∈ b, y ≠ 41) ∨ parenSeg u := by
  obtain ⟨a, b, d, heq, hb, hnb⟩ := h
  match a with
  | [] =>
    rw [List.nil_append] at heq
    injection heq with h1 h2
    exact Or.inl ⟨h1, b, d, h2, hb, hnb⟩
  | a0 :: a' =>
    rw [List.cons_append] at heq
    injection heq with h1 h2
    exact Or.inr ⟨a', b, d, h2, hb, hnb⟩

theorem thin_41_transfer {P : Nat → Prop} (hP : ∀ c, P c → c ≠ 41) :
    ∀ {a b : List Nat}, Thin P a b → ∀ {d : List Nat}, b = 41 :: d →
    ∃ p q, a = p ++ 41 :: q ∧ ∀ x ∈ p, P x := by
  intro a b hab
  induction hab with
  | nil => intro d hd; exact absurd hd (by simp)
  | keep c0 s t _ _ =>
    intro d hd
    injection hd with h1 h2
    exact ⟨[], s, by rw [h1]; rfl, by simp⟩
  | drop c0 s t hp _ ih =>
    intro d hd
    obtain ⟨p, q, heq, hpP⟩ := ih hd
    refine ⟨c0 :: p, q, by rw [heq]; rfl, ?_⟩
    intro x hx
    rcases List.mem_cons.mp hx with rfl | hx
    · exact hp
    · exact hpP x hx
  | subst c0 c0' s t hp hp' _ _ =>
    intro d hd
    injection hd with h1 h2
    exact absurd h1 (hP c0' hp')

theorem thin_41_gap_transfer {P : Nat → Prop} (hP : ∀ c, P c → c ≠ 41) :
    ∀ {a b : List Nat}, Thin P a b →
    ∀ {bb d : List Nat}, b = bb ++ 41 :: d → bb ≠ [] → (∀ y ∈ bb, y ≠ 41) →
    ∃ aa q, a = aa ++ 41 :: q ∧ aa ≠ [] ∧ ∀ y ∈ aa, y ≠ 41 := by
  intro a b hab
  induction hab with
  | nil =>
    intro bb d hd hbb _
    exact absurd hd (by simp [List.append_ne_nil_of_right_ne_nil])
  | keep c0 s t h2 ih =>
    intro bb d hd hbb hnb
    match bb with
    | [] => exact absurd rfl hbb
    | b0 :: bb' =>
      rw [List.cons_append] at hd
      injection hd with h1 h3
      subst h1
      match bb' with
      | [] =>
        rw [List.nil_append] at h3
        obtain ⟨p, q, heq, hpP⟩ := thin_41_transfer hP h2 h3
        refine ⟨c0 :: p, q, by rw [heq]; rfl, by simp, ?_⟩
        intro y hy
        rcases List.mem_cons.mp hy with rfl | hy
        · exact hnb y (List.mem_cons_self _ _)
        · exact hP y (hpP y hy)
      | b1 :: bb'' =>
        obtain ⟨aa, q, heq, haa, hna⟩ := ih h3 (by simp) (by
          intro y hy
          exact hnb y (List.mem_cons_of_mem _ hy))
        refine ⟨c0 :: aa, q, by rw [heq]; rfl, by simp, ?_⟩
        intro y hy
        rcases List.mem_cons.mp hy with rfl | hy
        · exact hnb y (List.mem_cons_self _ _)
        · exact hna y hy
  | drop c0 s t hp _ ih =>
    intro bb d hd hbb hnb
    obtain ⟨aa, q, heq, haa, hna⟩ := ih hd hbb hnb
    refine ⟨c0 :: aa, q, by rw [heq]; rfl, by simp, ?_⟩
    intro y hy
    rcases List.mem_cons.mp hy with rfl | hy
    · exact hP y hp
    · exact hna y hy
  | subst c0 c0' s t hp hp' h2 ih =>
    intro bb d hd hbb hnb
    match bb with
    | [] => exact absurd rfl hbb
    | b0 :: bb' =>
      rw [List.cons_append] at hd
      injection hd with h1 h3
      match bb' with
      | [] =>
        rw [List.nil_append] at h3
        obtain ⟨p, q, heq, hpP⟩ := thin_41_transfer hP h2 h3
        refine ⟨c0 :: p, q, by rw [heq]; rfl, by simp, ?_⟩
        intro y hy
        rcases List.mem_cons.mp hy with rfl | hy
        · exact hP y hp
        · exact hP y (hpP y hy)
      | b1 :: bb'' =>
        obtain ⟨aa, q, heq, haa, hna⟩ := ih h3 (by simp) (by
          intro y hy
          exact hnb y (List.mem_cons_of_mem _ hy))
        refine ⟨c0 :: aa, q, by rw [heq]; rfl, by simp, ?_⟩
        intro y hy
        rcases List.mem_cons.mp hy with rfl | hy
        · exact hP y hp
        · exact hna y hy

theorem thin_parenSeg {P : Nat → Prop} (hP : ∀ c, P c → c ≠ 40 ∧ c ≠ 41) :
    ∀ {a b : List Nat}, Thin P a b → parenSeg b → parenSeg a := by
  intro a b hab
  induction hab with
  | nil => intro h; exact absurd h parenSeg_nil
  | keep c0 s t h2 ih =>
    intro h
    rcases parenSeg_cons_elim h with ⟨rfl, bb, d, heq, hbb, hnb⟩ | h
    · obtain ⟨aa, q, heq2, haa, hna⟩ :=
        thin_41_gap_transfer (fun c hc => (hP c hc).2) h2 heq hbb hnb
      exact ⟨[], aa, q, by rw [heq2]; rfl, haa, hna⟩
    · exact parenSeg_cons c0 (ih h)
  | drop c0 s t hp _ ih =>
    intro h
    exact parenSeg_cons c0 (ih h)
  | subst c0 c0' s t hp hp' h2 ih =>
    intro h
    rcases parenSeg_cons_elim h with ⟨heq40, -⟩ | h
    · exact absurd heq40 (hP c0' hp').1
    · exact parenSeg_cons c0 (ih h)

theorem parenMatchAt_some_seg {s v : List Nat} (h : parenMatchAt s = some v) : parenSeg s := by
  unfold parenMatchAt at h
  split_ifs at h with hc
  · obtain ⟨h1, h2, h3⟩ := hc
    rcases hd : s.dropWhile wsB with _ | ⟨c, u⟩
    · rw [hd] at h1; exact absurd h1 (by simp)
    · rw [hd] at h1 h2 h3
      have hc40 : c = 40 := by simpa using h1
      subst hc40
      simp only [List.tail_cons] at h2 h3
      rcases hd2 : u.dropWhile (fun c => !(c == 41)) with _ | ⟨e, v'⟩
      · rw [hd2] at h2; exact absurd h2 (by simp)
      · rw [hd2] at h2
        have he41 : e = 41 := by simpa using h2
        subst he41
        refine ⟨s.takeWhile wsB, u.takeWhile (fun c => !(c == 41)), v', ?_, h3, ?_⟩
        · have hu : u.takeWhile (fun c => !(c == 41)) ++ 41 :: v' = u := by
            conv_rhs => rw [← List.takeWhile_append_dropWhile
              (p := fun c => !(c == 41)) (l := u)]
            rw [hd2]
          rw [hu]
          conv_lhs => rw [← List.takeWhile_append_dropWhile (p := wsB) (l := s)]
          rw [hd]
        · intro x hx
          have := List.mem_takeWhile_imp hx
          simpa using this

theorem subParenF_fix : ∀ (fuel : Nat) (s : List Nat), ¬ parenSeg s → subParenF fuel s = s := by
  intro fuel
  induction fuel with
  | zero => intro s _; rfl
  | succ fuel ih =>
    intro s hs
    match s with
    | [] => rfl
    | c :: t =>
      rw [subParenF]
      rcases hm : parenMatchAt (c :: t) with _ | rest
      · rw [ih t (fun h => hs (parenSeg_cons c h))]
      · exact absurd (parenMatchAt_some_seg hm) hs

theorem head41_dropWhile : ∀ {t : List Nat}, 41 ∈ t →
    (t.dropWhile (fun c => !(c == 41))).head? = some 41 := by
  intro t
  induction t with
  | nil => intro h; simp at h
  | cons c u ih =>
    intro h
    by_cases hc : c = 41
    · subst hc
      rw [List.dropWhile_cons, if_neg (by simp)]
      rfl
    · rw [List.dropWhile_cons, if_pos (by simpa using hc)]
      rcases List.mem_cons.mp h with h41 | h41
      · exact absurd h41.symm hc
      · exact ih h41

theorem parenMatchAt_cons40_some {t : List Nat}
    (hB : (t.dropWhile (fun c => !(c == 41))).head? = some 41)
    (hC : t.takeWhile (fun c => !(c == 41)) ≠ []) :
    parenMatchAt (40 :: t) ≠ none := by
  unfold parenMatchAt
  rw [if_pos]
  · simp
  · refine ⟨?_, ?_, ?_⟩
    · rw [List.dropWhile_cons, if_neg (show ¬(wsB 40 = true) by decide)]
      rfl
    · rw [List.dropWhile_cons, if_neg (show ¬(wsB 40 = true) by decide)]
      simpa using hB
    · rw [List.dropWhile_cons, if_neg (show ¬(wsB 40 = true) by decide)]
      simpa using hC

theorem subParenF_head41 : ∀ (fuel : Nat) (u : List Nat),
    (subParenF fuel (41 :: u)).head? = some 41 := by
  intro fuel u
  have hm : parenMatchAt (41 :: u) = none := by
    unfold parenMatchAt
    rw [if_neg]
    intro hcon
    have h1 := hcon.1
    rw [List.dropWhile_cons, if_neg (by decide)] at h1
    simp at h1
  match fuel with
  | 0 => rfl
  | fuel + 1 =>
    rw [subParenF, hm]
    rfl

theorem noParen_subParenF : ∀ (fuel : Nat) (s : List Nat), s.length ≤ fuel →
    ¬ parenSeg (subParenF fuel s) := by
  intro fuel
  induction fuel with
  | zero =>
    intro s hlen
    rw [List.length_eq_zero.mp (Nat.le_zero.mp hlen)]
    exact parenSeg_nil
  | succ fuel ih =>
    intro s hlen
    match s with
    | [] => exact parenSeg_nil
    | c :: t =>
      rw [subParenF]
      rcases hm : parenMatchAt (c :: t) with _ | rest
      · intro h
        rcases parenSeg_cons_elim h with ⟨rfl, bb, d, heq, hbb, hnb⟩ | h
        · have h41t : 41 ∈ t := by
            have : (41 : Nat) ∈ subParenF fuel t := by rw [heq]; simp
            exact mem_subParenF this
          by_cases ht1 : t.takeWhile (fun c => !(c == 41)) = []
          · -- t must start with the close paren
            rcases t with _ | ⟨c2, u⟩
            · simp at h41t
            · rw [List.takeWhile_cons] at ht1
              split_ifs at ht1 with hc2
              have hc241 : c2 = 41 := by simpa using hc2
              subst hc241
              have hhead := subParenF_head41 fuel u
              rw [heq] at hhead
              rcases bb with _ | ⟨b0, bb'⟩
              · exact hbb rfl
              · simp only [List.cons_append, List.head?_cons, Option.some.injEq] at hhead
                exact hnb b0 (List.mem_cons_self _ _) hhead
          · -- otherwise the engine would have matched here
            exact parenMatchAt_cons40_some (head41_dropWhile h41t) ht1 hm
        · exact ih t (by simpa using Nat.le_of_succ_le_succ hlen) h
      · have hrest : rest.length ≤ fuel := by
          have := parenMatchAt_lt (c :: t) rest hm
          simp only [List.length_cons] at this hlen
          omega
        exact ih rest hrest

theorem word_not_ws {c : Nat} (h : wordB c = true) : wsB c = false := by
  by_contra hc
  have := wsB_not_word (by simpa using Bool.not_eq_false _ ▸ hc)
  rw [h] at this
  exact absurd this (by simp)

theorem saltSeg_cons (c : Nat) {w u : List Nat} (h : saltSeg w u) : saltSeg w (c :: u) := by
  obtain ⟨a, r, d, heq, hr, hws, hbd⟩ := h
  exact ⟨c :: a, r, d, by rw [heq]; simp, hr, hws, hbd⟩

theorem saltSeg_prepend {w u : List Nat} (x : List Nat) (h : saltSeg w u) :
    saltSeg w (x ++ u) := by
  induction x with
  | nil => exact h
  | cons c x' ih => exact saltSeg_cons c ih

theorem saltSeg_cons_elim {w : List Nat} {x : Nat} {u : List Nat} (h : saltSeg w (x :: u)) :
    (wsB x = true ∧ ∃ r' d, u = r' ++ w ++ d ∧ (∀ c ∈ r', wsB c = true) ∧ bdW d = true) ∨
      saltSeg w u := by
  obtain ⟨a, r, d, heq, hr, hws, hbd⟩ := h
  match a with
  | a0 :: a' =>
    simp only [List.append_assoc, List.cons_append] at heq
    injection heq with h1 h2
    refine Or.inr ⟨a', r, d, ?_, hr, hws, hbd⟩
    rw [h2]
    simp [List.append_assoc]
  | [] =>
    match r, hr with
    | r0 :: r', _ =>
      simp only [List.nil_append, List.append_assoc, List.cons_append] at heq
      injection heq with h1 h2
      refine Or.inl ⟨h1 ▸ hws r0 (List.mem_cons_self _ _), r', d, ?_, ?_, hbd⟩
      · rw [h2]; simp [List.append_assoc]
      · intro c hc; exact hws c (List.mem_cons_of_mem _ hc)

theorem bdW_append_ws {d x : List Nat} (hd : bdW d = true) (hx : ∀ c ∈ x, wsB c = true) :
    bdW (d ++ x) = true := by
  match d with
  | [] =>
    match x with
    | [] => rfl
    | c :: x' =>
      simp only [List.nil_append, bdW]
      have := wsB_not_word (hx c (List.mem_cons_self _ _))
      simp [this]
  | e :: d' => exact hd

theorem saltSeg_append_ws {w t : List Nat} (x : List Nat) (h : saltSeg w t)
    (hx : ∀ c ∈ x, wsB c = true) : saltSeg w (t ++ x) := by
  obtain ⟨a, r, d, heq, hr, hws, hbd⟩ := h
  exact ⟨a, r, d ++ x, by rw [heq]; simp [List.append_assoc], hr, hws, bdW_append_ws hbd hx⟩

theorem bdW_subSaltWF {w : List Nat} : ∀ (fuel : Nat) (t : List Nat),
    bdW t = true → bdW (subSaltWF w fuel t) = true := by
  intro fuel
  induction fuel with
  | zero => intro t h; exact h
  | succ fuel ih =>
    intro t h
    match t with
    | [] => exact h
    | c :: t' =>
      rw [subSaltWF]
      rcases hm : saltWordMatch w (c :: t') with _ | rest
      · exact h
      · obtain ⟨-, -, hbd⟩ := saltWordMatch_decomp hm
        exact ih rest hbd

theorem takeWhile_ws_cons_ne {c : Nat} {t : List Nat}
    (h : (List.takeWhile wsB (c :: t)) ≠ []) : wsB c = true := by
  rw [List.takeWhile_cons] at h
  by_contra hc
  rw [if_neg (by simpa using hc)] at h
  exact h rfl

theorem word_prefix_transfer {w : List Nat} : ∀ (fuel : Nat) (t u d : List Nat),
    (∀ c ∈ u, wordB c = true) → subSaltWF w fuel t = u ++ d → bdW d = true →
    ∃ d₁, t = u ++ d₁ ∧ bdW d₁ = true := by
  intro fuel
  induction fuel with
  | zero => intro t u d _ hsub hd; exact ⟨d, hsub.symm ▸ rfl, hd⟩
  | succ fuel ih =>
    intro t u d hu hsub hd
    match t with
    | [] =>
      have : u = [] ∧ d = [] := by
        have h0 : ([] : List Nat) = u ++ d := hsub
        constructor
        · exact List.eq_nil_of_length_eq_zero (by
            have := congrArg List.length h0
            simp at this
            omega)
        · exact List.eq_nil_of_length_eq_zero (by
            have := congrArg List.length h0
            simp at this
            omega)
      obtain ⟨rfl, rfl⟩ := this
      exact ⟨[], rfl, rfl⟩
    | c :: t' =>
      rw [subSaltWF] at hsub
      rcases hm : saltWordMatch w (c :: t') with _ | rest <;> rw [hm] at hsub
      · -- no match at the head: the scanner keeps c
        match u, hu with
        | [], _ =>
          refine ⟨c :: t', rfl, ?_⟩
          rw [List.nil_append] at hsub
          rw [← hsub] at hd
          exact hd
        | l :: u', hu =>
          rw [List.cons_append] at hsub
          injection hsub with h1 h2
          obtain ⟨d₁, ht', hbd₁⟩ := ih t' u' d
            (fun x hx => hu x (List.mem_cons_of_mem _ hx)) h2 hd
          exact ⟨d₁, by rw [h1, ht']; rfl, hbd₁⟩
      · -- a match at the head: the output starts at a boundary, so u must be empty
        obtain ⟨heq, htw, hbdrest⟩ := saltWordMatch_decomp hm
        match u, hu with
        | [], _ =>
          refine ⟨c :: t', rfl, ?_⟩
          have hcws : wsB c = true := takeWhile_ws_cons_ne htw
          simp [bdW, wsB_not_word hcws]
        | l :: u', hu =>
          have hsub' : subSaltWF w fuel rest = l :: u' ++ d := hsub
          have hbout : bdW (subSaltWF w fuel rest) = true := bdW_subSaltWF fuel rest hbdrest
          rw [hsub'] at hbout
          simp only [List.cons_append, bdW] at hbout
          have := hu l (List.mem_cons_self _ _)
          rw [this] at hbout
          exact absurd hbout (by simp)

theorem dropWhile_ws_append_all {r v : List Nat} (hr : ∀ c ∈ r, wsB c = true) :
    (r ++ v).dropWhile wsB = v.dropWhile wsB := by
  induction r with
  | nil => rfl
  | cons c r' ih =>
    rw [List.cons_append, List.dropWhile_cons, if_pos (hr c (List.mem_cons_self _ _))]
    exact ih fun x hx => hr x (List.mem_cons_of_mem _ hx)

theorem pfxB_self_append : ∀ (w x : List Nat), pfxB w (w ++ x) = true := by
  intro w x
  induction w with
  | nil => rfl
  | cons c w' ih => simp [pfxB, ih]

theorem saltSeg_nil {w : List Nat} : ¬ saltSeg w [] := by
  rintro ⟨a, r, d, heq, hr, -, -⟩
  have hlen := congrArg List.length heq
  simp only [List.length_nil, List.length_append] at hlen
  exact hr (List.eq_nil_of_length_eq_zero (by omega))

theorem saltWordMatch_of_shape {w : List Nat} (hw : w ≠ []) (hword : ∀ c ∈ w, wordB c = true)
    {c : Nat} {t r₁ d₁ : List Nat} (hc : wsB c = true) (hr : ∀ x ∈ r₁, wsB x = true)
    (hbd : bdW d₁ = true) (ht : t = r₁ ++ w ++ d₁) :
    saltWordMatch w (c :: t) ≠ none := by
  have hdw : (c :: t).dropWhile wsB = w ++ d₁ := by
    rw [List.dropWhile_cons, if_pos hc, ht, List.append_assoc, dropWhile_ws_append_all hr]
    match w, hw with
    | w0 :: w', _ =>
      rw [List.cons_append, List.dropWhile_cons,
        if_neg (by simp [word_not_ws (hword w0 (List.mem_cons_self _ _))])]
  unfold saltWordMatch
  rw [if_pos]
  · simp
  · refine ⟨?_, ?_, ?_⟩
    · rw [List.takeWhile_cons, if_pos hc]
      simp
    · rw [hdw]
      exact pfxB_self_append w d₁
    · rw [hdw, List.drop_left]
      exact hbd

theorem subSaltW_self_clean {w : List Nat} (hw : w ≠ []) (hword : ∀ c ∈ w, wordB c = true) :
    ∀ (fuel : Nat) (s : List Nat), s.length ≤ fuel →
    (¬ saltSeg w (subSaltWF w fuel s)) ∧
    (∀ r' d, (∀ c ∈ r', wsB c = true) → bdW d = true →
      subSaltWF w fuel s = r' ++ w ++ d →
      ∃ r₁ d₁, s = r₁ ++ w ++ d₁ ∧ (∀ c ∈ r₁, wsB c = true) ∧ bdW d₁ = true) := by
  intro fuel
  induction fuel with
  | zero =>
    intro s hlen
    have hs : s = [] := List.length_eq_zero.mp (Nat.le_zero.mp hlen)
    subst hs
    refine ⟨saltSeg_nil, ?_⟩
    intro r' d _ _ hsub
    have hsub' : ([] : List Nat) = r' ++ w ++ d := hsub
    have hlen2 := congrArg List.length hsub'
    simp only [List.length_nil, List.length_append] at hlen2
    exact absurd (List.eq_nil_of_length_eq_zero (by omega)) hw
  | succ fuel ih =>
    intro s hlen
    match s with
    | [] =>
      refine ⟨saltSeg_nil, ?_⟩
      intro r' d _ _ hsub
      have hsub' : ([] : List Nat) = r' ++ w ++ d := hsub
      have hlen2 := congrArg List.length hsub'
      simp only [List.length_nil, List.length_append] at hlen2
      exact absurd (List.eq_nil_of_length_eq_zero (by omega)) hw
    | c :: t =>
      have hlt : t.length ≤ fuel := by simpa using Nat.le_of_succ_le_succ hlen
      rcases hm : saltWordMatch w (c :: t) with _ | rest
      · have hout : subSaltWF w (fuel + 1) (c :: t) = c :: subSaltWF w fuel t := by
          rw [subSaltWF, hm]
        rw [hout]
        constructor
        · intro hseg
          rcases saltSeg_cons_elim hseg with ⟨hcws, r₂, d₂, hsub2, hr₂, hbd₂⟩ | hseg
          · obtain ⟨r₁, d₁, hteq, hrws, hbd₁⟩ := (ih t hlt).2 r₂ d₂ hr₂ hbd₂ hsub2
            exact saltWordMatch_of_shape hw hword hcws hrws hbd₁ hteq hm
          · exact (ih t hlt).1 hseg
        · intro r' d hr' hd hsub
          cases r' with
          | cons r0 r₂ =>
            simp only [List.cons_append, List.append_assoc] at hsub
            injection hsub with h1 h2
            rw [← List.append_assoc] at h2
            obtain ⟨r₁, d₁, hteq, hrws, hbd₁⟩ :=
              (ih t hlt).2 r₂ d (fun x hx => hr' x (List.mem_cons_of_mem _ hx)) hd h2
            subst h1
            exact absurd hm (saltWordMatch_of_shape hw hword
              (hr' c (List.mem_cons_self _ _)) hrws hbd₁ hteq)
          | nil =>
            rcases hwc : w with _ | ⟨w0, w'⟩
            · exact absurd hwc hw
            · rw [hwc] at hsub hword
              simp only [List.nil_append, List.cons_append] at hsub
              injection hsub with h1 h2
              obtain ⟨d₁, hteq, hbd₁⟩ := word_prefix_transfer fuel t w' d
                (fun x hx => hword x (List.mem_cons_of_mem _ hx)) h2 hd
              refine ⟨[], d₁, ?_, by simp, hbd₁⟩
              rw [List.nil_append, hteq, h1]
              rfl
      · obtain ⟨heq, htw, hbdrest⟩ := saltWordMatch_decomp hm
        have hout : subSaltWF w (fuel + 1) (c :: t) = subSaltWF w fuel rest := by
          rw [subSaltWF, hm]
        have hrl : rest.length ≤ fuel := by
          have := saltWordMatch_lt w (c :: t) rest hm
          simp only [List.length_cons] at this hlen
          omega
        rw [hout]
        constructor
        · exact (ih rest hrl).1
        · intro r' d _ _ _
          refine ⟨(c :: t).takeWhile wsB, rest, by rw [List.append_assoc, ← heq], ?_, hbdrest⟩
          intro x hx
          exact List.mem_takeWhile_imp hx

theorem subSaltW_cross_clean {w v : List Nat} (hv : v ≠ []) (hvword : ∀ c ∈ v, wordB c = true) :
    ∀ (fuel : Nat) (s : List Nat),
    (saltSeg v (subSaltWF w fuel s) → saltSeg v s) ∧
    (∀ r' d, (∀ c ∈ r', wsB c = true) → bdW d = true →
      subSaltWF w fuel s = r' ++ v ++ d →
      (∃ r₁ d₁, s = r₁ ++ v ++ d₁ ∧ (∀ c ∈ r₁, wsB c = true) ∧ bdW d₁ = true) ∨
        saltSeg v s) := by
  intro fuel
  induction fuel with
  | zero =>
    intro s
    exact ⟨id, fun r' d hr' hd hsub => Or.inl ⟨r', d, hsub, hr', hd⟩⟩
  | succ fuel ih =>
    intro s
    match s with
    | [] =>
      refine ⟨fun h => h, ?_⟩
      intro r' d _ _ hsub
      have hsub' : ([] : List Nat) = r' ++ v ++ d := hsub
      have hlen2 := congrArg List.length hsub'
      simp only [List.length_nil, List.length_append] at hlen2
      exact absurd (List.eq_nil_of_length_eq_zero (by omega)) hv
    | c :: t =>
      rcases hm : saltWordMatch w (c :: t) with _ | rest
      · have hout : subSaltWF w (fuel + 1) (c :: t) = c :: subSaltWF w fuel t := by
          rw [subSaltWF, hm]
        rw [hout]
        constructor
        · intro hseg
          rcases saltSeg_cons_elim hseg with ⟨hcws, r₂, d₂, hsub2, hr₂, hbd₂⟩ | hseg
          · rcases (ih t).2 r₂ d₂ hr₂ hbd₂ hsub2 with ⟨r₁, d₁, hteq, hrws, hbd₁⟩ | hseg
            · refine ⟨[], c :: r₁, d₁, ?_, by simp, ?_, hbd₁⟩
              · rw [hteq]; simp [List.append_assoc]
              · intro x hx
                rcases List.mem_cons.mp hx with rfl | hx
                · exact hcws
                · exact hrws x hx
            · exact saltSeg_cons c hseg
          · exact saltSeg_cons c ((ih t).1 hseg)
        · intro r' d hr' hd hsub
          cases r' with
          | cons r0 r₂ =>
            simp only [List.cons_append, List.append_assoc] at hsub
            injection hsub with h1 h2
            rw [← List.append_assoc] at h2
            rcases (ih t).2 r₂ d (fun x hx => hr' x (List.mem_cons_of_mem _ hx)) hd h2 with
              ⟨r₁, d₁, hteq, hrws, hbd₁⟩ | hseg
            · refine Or.inl ⟨r0 :: r₁, d₁, ?_, ?_, hbd₁⟩
              · rw [← h1, hteq]; simp [List.append_assoc]
              · intro x hx
                rcases List.mem_cons.mp hx with rfl | hx
                · exact hr' x (List.mem_cons_self _ _)
                · exact hrws x hx
            · exact Or.inr (saltSeg_cons c hseg)
          | nil =>
            rcases hvc : v with _ | ⟨v0, v'⟩
            · exact absurd hvc hv
            · rw [hvc] at hsub hvword
              simp only [List.nil_append, List.cons_append] at hsub
              injection hsub with h1 h2
              obtain ⟨d₁, hteq, hbd₁⟩ := word_prefix_transfer fuel t v' d
                (fun x hx => hvword x (List.mem_cons_of_mem _ hx)) h2 hd
              refine Or.inl ⟨[], d₁, ?_, by simp, hbd₁⟩
              rw [List.nil_append, hteq, h1]
              rfl
      · obtain ⟨heq, htw, hbdrest⟩ := saltWordMatch_decomp hm
        have hout : subSaltWF w (fuel + 1) (c :: t) = subSaltWF w fuel rest := by
          rw [subSaltWF, hm]
        rw [hout]
        have hpre : ∀ x, saltSeg v x → x = rest → saltSeg v (c :: t) := by
          intro x hseg hx
          subst hx
          rw [heq]
          exact saltSeg_prepend _ (saltSeg_prepend w hseg)
        constructor
        · intro hseg
          exact hpre rest ((ih rest).1 hseg) rfl
        · intro r' d hr' hd hsub
          rcases (ih rest).2 r' d hr' hd hsub with ⟨r₁, d₁, hreq, hrws, hbd₁⟩ | hseg
          · cases r₁ with
            | nil =>
              rcases hvc : v with _ | ⟨v0, v'⟩
              · exact absurd hvc hv
              · rw [List.nil_append] at hreq
                rw [hvc] at hreq hvword
                rw [hreq] at hbdrest
                simp only [List.cons_append, bdW] at hbdrest
                rw [hvword v0 (List.mem_cons_self _ _)] at hbdrest
                exact absurd hbdrest (by simp)
            | cons r0 r₂ =>
              refine Or.inr (hpre rest ⟨[], r0 :: r₂, d₁, by rw [hreq]; simp, ?_,
                hrws, hbd₁⟩ rfl)
              simp
          · exact Or.inr (hpre rest hseg rfl)

theorem collapse_word_transfer : ∀ (fuel : Nat) (t u d : List Nat),
    (∀ c ∈ u, wordB c = true) → collapseWsF fuel t = u ++ d → bdW d = true →
    ∃ d₁, t = u ++ d₁ ∧ bdW d₁ = true := by
  intro fuel
  induction fuel with
  | zero => intro t u d _ hsub hd; exact ⟨d, hsub ▸ rfl, hd⟩
  | succ fuel ih =>
    intro t u d hu hsub hd
    match t with
    | [] =>
      have hsub' : ([] : List Nat) = u ++ d := hsub
      have h1 : u = [] := by
        have := congrArg List.length hsub'
        simp only [List.length_nil, List.length_append] at this
        exact List.eq_nil_of_length_eq_zero (by omega)
      subst h1
      exact ⟨[], by simpa using hsub', rfl⟩
    | c :: t' =>
      rw [collapseWsF] at hsub
      split_ifs at hsub with hws
      · cases u with
        | nil =>
          refine ⟨c :: t', rfl, ?_⟩
          simp [bdW, wsB_not_word hws]
        | cons l u' =>
          rw [List.cons_append] at hsub
          injection hsub with h1 h2
          have := hu l (List.mem_cons_self _ _)
          rw [← h1] at this
          exact absurd this (by decide)
      · cases u with
        | nil =>
          refine ⟨c :: t', rfl, ?_⟩
          rw [List.nil_append] at hsub
          rw [← hsub] at hd
          exact hd
        | cons l u' =>
          rw [List.cons_append] at hsub
          injection hsub with h1 h2
          obtain ⟨d₁, ht', hbd₁⟩ := ih t' u' d
            (fun x hx => hu x (List.mem_cons_of_mem _ hx)) h2 hd
          exact ⟨d₁, by rw [h1, ht']; rfl, hbd₁⟩

theorem collapse_salt_transfer {v : List Nat} (hv : v ≠ []) (hvw : ∀ c ∈ v, wordB c = true) :
    ∀ (fuel : Nat) (t r d : List Nat), (∀ c ∈ r, wsB c = true) →
    collapseWsF fuel t = r ++ v ++ d → bdW d = true →
    ∃ r₁ d₁, t = r₁ ++ v ++ d₁ ∧ (∀ c ∈ r₁, wsB c = true) ∧ bdW d₁ = true := by
  intro fuel
  induction fuel with
  | zero => intro t r d hr hsub hd; exact ⟨r, d, hsub ▸ rfl, hr, hd⟩
  | succ fuel ih =>
    intro t r d hr hsub hd
    match t with
    | [] =>
      have hsub' : ([] : List Nat) = r ++ v ++ d := hsub
      have := congrArg List.length hsub'
      simp only [List.length_nil, List.length_append] at this
      exact absurd (List.eq_nil_of_length_eq_zero (by omega)) hv
    | c :: t' =>
      rw [collapseWsF] at hsub
      split_ifs at hsub with hws
      · cases r with
        | nil =>
          rcases hvc : v with _ | ⟨v0, v'⟩
          · exact absurd hvc hv
          · rw [hvc] at hsub hvw
            simp only [List.nil_append, List.cons_append] at hsub
            injection hsub with h1 h2
            have := hvw v0 (List.mem_cons_self _ _)
            rw [← h1] at this
            exact absurd this (by decide)
        | cons r0 r₂ =>
          simp only [List.cons_append, List.append_assoc] at hsub
          injection hsub with h1 h2
          rw [← List.append_assoc] at h2
          obtain ⟨r₃, d₁, hteq, hrws, hbd₁⟩ := ih (t'.dropWhile wsB) r₂ d
            (fun x hx => hr x (List.mem_cons_of_mem _ hx)) h2 hd
          refine ⟨c :: t'.takeWhile wsB ++ r₃, d₁, ?_, ?_, hbd₁⟩
          · conv_lhs => rw [show t' = t'.takeWhile wsB ++ t'.dropWhile wsB from
              (List.takeWhile_append_dropWhile _ _).symm]
            rw [hteq]
            simp [List.append_assoc]
          · intro x hx
            rcases List.mem_cons.mp hx with rfl | hx
            · exact hws
            · rcases List.mem_append.mp hx with hx | hx
              · exact List.mem_takeWhile_imp hx
              · exact hrws x hx
      · cases r with
        | nil =>
          rcases hvc : v with _ | ⟨v0, v'⟩
          · exact absurd hvc hv
          · rw [hvc] at hsub hvw
            simp only [List.nil_append, List.cons_append] at hsub
            injection hsub with h1 h2
            obtain ⟨d₁, hteq, hbd₁⟩ := collapse_word_transfer fuel t' v' d
              (fun x hx => hvw x (List.mem_cons_of_mem _ hx)) h2 hd
            refine ⟨[], d₁, ?_, by simp, hbd₁⟩
            rw [List.nil_append, hteq, h1]
            rfl
        | cons r0 r₂ =>
          simp only [List.cons_append, List.append_assoc] at hsub
          injection hsub with h1 h2
          have := hr r0 (List.mem_cons_self _ _)
          rw [← h1] at this
          exact absurd this (by simpa using hws)

theorem collapse_saltSeg {v : List Nat} (hv : v ≠ []) (hvw : ∀ c ∈ v, wordB c = true) :
    ∀ (fuel : Nat) (s : List Nat), saltSeg v (collapseWsF fuel s) → saltSeg v s := by
  intro fuel
  induction fuel with
  | zero => intro s h; exact h
  | succ fuel ih =>
    intro s h
    match s with
    | [] => exact absurd h saltSeg_nil
    | c :: t =>
      rw [collapseWsF] at h
      split_ifs at h with hws
      · rcases saltSeg_cons_elim h with ⟨-, r₂, d₂, hXeq, hr₂, hbd₂⟩ | h
        · obtain ⟨r₃, d₁, hteq, hrws, hbd₁⟩ :=
            collapse_salt_transfer hv hvw fuel (t.dropWhile wsB) r₂ d₂ hr₂ hXeq hbd₂
          refine ⟨[], c :: t.takeWhile wsB ++ r₃, d₁, ?_, by simp, ?_, hbd₁⟩
          · conv_lhs => rw [show t = t.takeWhile wsB ++ t.dropWhile wsB from
              (List.takeWhile_append_dropWhile _ _).symm]
            rw [hteq]
            simp [List.append_assoc]
          · intro x hx
            rcases List.mem_cons.mp hx with rfl | hx
            · exact hws
            · rcases List.mem_append.mp hx with hx | hx
              · exact List.mem_takeWhile_imp hx
              · exact hrws x hx
        · have h2 := ih (t.dropWhile wsB) h
          have h3 : saltSeg v t := by
            have := saltSeg_prepend (t.takeWhile wsB) h2
            rwa [List.takeWhile_append_dropWhile] at this
          exact saltSeg_cons c h3
      · rcases saltSeg_cons_elim h with ⟨hcws, -⟩ | h
        · exact absurd hcws (by simpa using hws)
        · exact saltSeg_cons c (ih t h)

theorem dropTrailWs_decomp : ∀ s : List Nat,
    ∃ x, s = dropTrailWs s ++ x ∧ ∀ c ∈ x, wsB c = true := by
  intro s
  induction s with
  | nil => exact ⟨[], rfl, by simp⟩
  | cons c t ih =>
    rw [dropTrailWs]
    split_ifs with hc
    · refine ⟨c :: t, rfl, ?_⟩
      intro x hx
      rcases List.mem_cons.mp hx with rfl | hx
      · exact hc.2
      · exact dropTrailWs_nil_all_ws hc.1 x hx
    · obtain ⟨x, hx, hxws⟩ := ih
      refine ⟨x, ?_, hxws⟩
      conv_lhs => rw [hx]
      rfl

theorem strip_saltSeg {v s : List Nat} (h : saltSeg v (pyStrip s)) : saltSeg v s := by
  unfold pyStrip at h
  obtain ⟨x, hx, hxws⟩ := dropTrailWs_decomp (s.dropWhile wsB)
  have h2 : saltSeg v (s.dropWhile wsB) := by
    rw [hx]
    exact saltSeg_append_ws x h hxws
  have := saltSeg_prepend (s.takeWhile wsB) h2
  rwa [List.takeWhile_append_dropWhile] at this

theorem saltWordMatch_some_seg {w s rest : List Nat} (h : saltWordMatch w s = some rest) :
    saltSeg w s := by
  obtain ⟨heq, htw, hbd⟩ := saltWordMatch_decomp h
  refine ⟨[], s.takeWhile wsB, rest, ?_, htw, fun x hx => List.mem_takeWhile_imp hx, hbd⟩
  conv_lhs => rw [heq]
  simp [List.append_assoc]

theorem subSaltWF_fix {w : List Nat} :
    ∀ (fuel : Nat) (s : List Nat), ¬ saltSeg w s → subSaltWF w fuel s = s := by
  intro fuel
  induction fuel with
  | zero => intro s _; rfl
  | succ fuel ih =>
    intro s hs
    match s with
    | [] => rfl
    | c :: t =>
      rw [subSaltWF]
      rcases hm : saltWordMatch w (c :: t) with _ | rest
      · rw [ih t (fun h => hs (saltSeg_cons c h))]
      · exact absurd (saltWordMatch_some_seg hm) hs

theorem ws_ne_paren {c : Nat} (h : wsB c = true) : c ≠ 40 ∧ c ≠ 41 := by
  constructor <;> rintro rfl <;> exact absurd h (by decide)

theorem collapseWsF_nil (fuel : Nat) : collapseWsF fuel [] = [] := by
  cases fuel <;> rfl

theorem collapse_head_ne_ws (fuel : Nat) (c : Nat) (u : List Nat) (h : wsB c = false) :
    (collapseWsF fuel (c :: u)).head? = some c := by
  cases fuel with
  | zero => rfl
  | succ fuel => rw [collapseWsF, if_neg (by simp [h])]; rfl

theorem collapse_good : ∀ (fuel : Nat) (s : List Nat), s.length ≤ fuel →
    GoodWs (collapseWsF fuel s) := by
  intro fuel
  induction fuel with
  | zero =>
    intro s hlen
    rw [List.length_eq_zero.mp (Nat.le_zero.mp hlen)]
    show GoodWs ([] : List Nat)
    exact ⟨by simp, List.chain'_nil⟩
  | succ fuel ih =>
    intro s hlen
    match s with
    | [] =>
      show GoodWs ([] : List Nat)
      exact ⟨by simp, List.chain'_nil⟩
    | c :: t =>
      rw [collapseWsF]
      split_ifs with hws
      · have hlen2 : (t.dropWhile wsB).length ≤ fuel := by
          have := len_dropWhile_le wsB t
          simp only [List.length_cons] at hlen
          omega
        obtain ⟨hg1, hg2⟩ := ih (t.dropWhile wsB) hlen2
        constructor
        · intro x hx _
          rcases List.mem_cons.mp hx with rfl | hx
          · rfl
          · exact hg1 x hx (by assumption)
        · rw [List.chain'_cons']
          refine ⟨?_, hg2⟩
          intro y hy
          rcases hd : t.dropWhile wsB with _ | ⟨d0, u⟩
          · rw [hd, collapseWsF_nil] at hy
            simp at hy
          · have hd0 : wsB d0 = false := dropWhile_head_not hd
            rw [hd, collapse_head_ne_ws fuel d0 u hd0] at hy
            have hyd : d0 = y := by simpa using hy
            rw [← hyd]
            exact Or.inr hd0
      · have hlen2 : t.length ≤ fuel := by
          simp only [List.length_cons] at hlen
          omega
        obtain ⟨hg1, hg2⟩ := ih t hlen2
        constructor
        · intro x hx hxws
          rcases List.mem_cons.mp hx with rfl | hx
          · exact absurd hxws (by simpa using hws)
          · exact hg1 x hx hxws
        · rw [List.chain'_cons']
          refine ⟨?_, hg2⟩
          intro y _
          exact Or.inl (by simpa using hws)

theorem good_pyStrip {s : List Nat} (h : GoodWs s) : GoodWs (pyStrip s) := by
  have h1 : GoodWs (s.dropWhile wsB) :=
    ⟨fun c hc => h.1 c ((List.dropWhile_suffix wsB).mem hc),
     h.2.suffix (List.dropWhile_suffix wsB)⟩
  obtain ⟨x, hx, -⟩ := dropTrailWs_decomp (s.dropWhile wsB)
  exact ⟨fun c hc => h1.1 c (mem_dropTrailWs hc), List.Chain'.prefix h1.2 ⟨x, hx.symm⟩⟩

theorem collapse_fix : ∀ (fuel : Nat) (s : List Nat), GoodWs s → collapseWsF fuel s = s := by
  intro fuel
  induction fuel with
  | zero => intro s _; rfl
  | succ fuel ih =>
    intro s hg
    match s with
    | [] => rfl
    | c :: t =>
      rw [collapseWsF]
      have hgt : GoodWs t := ⟨fun x hx => hg.1 x (List.mem_cons_of_mem c hx), hg.2.tail⟩
      split_ifs with hws
      · have hc32 : c = 32 := hg.1 c (List.mem_cons_self c t) hws
        have hdt : t.dropWhile wsB = t := by
          cases t with
          | nil => rfl
          | cons t0 u =>
            rcases (List.chain'_cons.mp hg.2).1 with h | h
            · exact absurd hws (by simp [h])
            · rw [List.dropWhile_cons, if_neg (by simp [h])]
        rw [hdt, ih t hgt, hc32]
      · rw [ih t hgt]

theorem foldl_subSaltW_mem :
    ∀ (wl : List (List Nat)) (z : List Nat) (c : Nat),
    c ∈ wl.foldl (fun acc w => subSaltW w acc) z → c ∈ z := by
  intro wl
  induction wl with
  | nil => intro z c h; exact h
  | cons w rest ih =>
    intro z c h
    rw [List.foldl_cons] at h
    exact mem_subSaltWF (ih (subSaltW w z) c h)

theorem foldl_subSaltW_parenSeg :
    ∀ (wl : List (List Nat)) (z : List Nat),
    (∀ w ∈ wl, ∀ c ∈ w, c ≠ 40 ∧ c ≠ 41) →
    parenSeg (wl.foldl (fun acc w => subSaltW w acc) z) → parenSeg z := by
  intro wl
  induction wl with
  | nil => intro z _ h; exact h
  | cons w rest ih =>
    intro z hchar h
    rw [List.foldl_cons] at h
    have h1 : parenSeg (subSaltW w z) :=
      ih (subSaltW w z) (fun v hv => hchar v (List.mem_cons_of_mem w hv)) h
    refine thin_parenSeg (P := fun c => wsB c = true ∨ c ∈ w) ?_ ?_ h1
    · intro c hc
      rcases hc with hc | hc
      · exact ws_ne_paren hc
      · exact hchar w (List.mem_cons_self w rest) c hc
    · exact thin_subSaltWF (fun c hc => Or.inl hc) (fun c hc => Or.inr hc) z.length z

theorem foldl_subSaltW_preserve {v : List Nat} (hv : v ≠ []) (hvw : ∀ c ∈ v, wordB c = true) :
    ∀ (wl : List (List Nat)) (z : List Nat),
    ¬ saltSeg v z → ¬ saltSeg v (wl.foldl (fun acc w => subSaltW w acc) z) := by
  intro wl
  induction wl with
  | nil => intro z h; exact h
  | cons w rest ih =>
    intro z hz
    rw [List.foldl_cons]
    refine ih (subSaltW w z) ?_
    intro h
    exact hz ((subSaltW_cross_clean hv hvw z.length z).1 h)

theorem foldl_subSaltW_clean :
    ∀ (wl : List (List Nat)) (z : List Nat),
    (∀ w ∈ wl, w ≠ [] ∧ ∀ c ∈ w, wordB c = true) →
    ∀ v ∈ wl, ¬ saltSeg v (wl.foldl (fun acc w => subSaltW w acc) z) := by
  intro wl
  induction wl with
  | nil => intro z _ v hv; exact absurd hv (List.not_mem_nil v)
  | cons w rest ih =>
    intro z hok v hv
    rw [List.foldl_cons]
    rcases List.mem_cons.mp hv with heq | hv
    · subst heq
      obtain ⟨hw, hword⟩ := hok v (List.mem_cons_self v rest)
      have h0 : ¬ saltSeg v (subSaltW v z) :=
        (subSaltW_self_clean hw hword z.length z le_rfl).1
      exact foldl_subSaltW_preserve hw hword rest (subSaltW v z) h0
    · exact ih (subSaltW w z) (fun u hu => hok u (List.mem_cons_of_mem w hu)) v hv

theorem foldl_subSaltW_fix :
    ∀ (wl : List (List Nat)) (y : List Nat),
    (∀ v ∈ wl, ¬ saltSeg v y) → wl.foldl (fun acc w => subSaltW w acc) y = y := by
  intro wl
  induction wl with
  | nil => intro y _; rfl
  | cons w rest ih =>
    intro y hok
    rw [List.foldl_cons]
    have h1 : subSaltW w y = y := subSaltWF_fix y.length y (hok w (List.mem_cons_self w rest))
    rw [h1]
    exact ih y (fun v hv => hok v (List.mem_cons_of_mem w hv))

theorem saltForms_chars :
    ∀ w ∈ saltForms, w ≠ [] ∧ ∀ c ∈ w, wordB c = true ∧ c ≠ 40 ∧ c ≠ 41 := by
  decide

theorem pyLower_fixed : ∀ {s : List Nat}, (∀ c ∈ s, lowerC c = c) → pyLower s = s := by
  intro s
  induction s with
  | nil => intro _; rfl
  | cons c t ih =>
    intro h
    show lowerC c :: pyLower t = c :: t
    rw [h c (List.mem_cons_self c t), ih (fun x hx => h x (List.mem_cons_of_mem c hx))]

/-- C8: the name normalizer is idempotent — `normalize_drug_name` applied to
its own output returns that output unchanged, for every input string. -/
theorem normalize_drug_name_idempotent (s : List Nat) :
    normalize_drug_name (normalize_drug_name s) = normalize_drug_name s := by
  by_cases hs : s = []
  · rw [hs]
    rfl
  · have hchars := saltForms_chars
    have hnorm : normalize_drug_name s =
        pyStrip (collapseWs (saltForms.foldl (fun acc w => subSaltW w acc)
          (pyStrip (subParen (pyStrip (pyLower s)))))) := by
      simp only [normalize_drug_name, if_neg hs]
    set y := normalize_drug_name s with hydef
    by_cases hy : y = []
    · rw [hy]
      rfl
    · have hLF : ∀ c ∈ y, lowerC c = c := by
        intro c hc
        rw [hnorm] at hc
        have hc1 := mem_pyStrip hc
        rcases mem_collapseWsF hc1 with hc2 | rfl
        · have hc3 := foldl_subSaltW_mem saltForms _ c hc2
          have hc5 := mem_pyStrip (mem_subParenF (mem_pyStrip hc3))
          obtain ⟨c', -, rfl⟩ := List.mem_map.mp hc5
          exact lowerC_idem c'
        · exact lowerC_32
      have hlow : pyLower y = y := pyLower_fixed hLF
      have hstr : pyStrip y = y := by rw [hnorm]; exact pyStrip_idem _
      have hnoP : ¬ parenSeg y := by
        rw [hnorm]
        intro h
        have h1 := thin_parenSeg (fun c hc => ws_ne_paren hc) (thin_pyStrip _) h
        have h2 := thin_parenSeg (fun c hc => ws_ne_paren hc)
          (thin_collapseWsF _ _) h1
        have h3 := foldl_subSaltW_parenSeg saltForms _
          (fun w hw c hcw => ((hchars w hw).2 c hcw).2) h2
        have h4 := thin_parenSeg (fun c hc => ws_ne_paren hc) (thin_pyStrip _) h3
        exact noParen_subParenF (pyStrip (pyLower s)).length (pyStrip (pyLower s)) le_rfl h4
      have hnoS : ∀ v ∈ saltForms, ¬ saltSeg v y := by
        intro v hv h
        have hvne : v ≠ [] := (hchars v hv).1
        have hvw : ∀ c ∈ v, wordB c = true := fun c hc => ((hchars v hv).2 c hc).1
        rw [hnorm] at h
        have h1 := strip_saltSeg h
        have h2 := collapse_saltSeg hvne hvw _ _ h1
        exact foldl_subSaltW_clean saltForms _
          (fun w hw => ⟨(hchars w hw).1, fun c hc => ((hchars w hw).2 c hc).1⟩) v hv h2
      have hgood : GoodWs y := by
        rw [hnorm]
        exact good_pyStrip (collapse_good _ _ le_rfl)
      have hcol : collapseWs y = y := collapse_fix y.length y hgood
      have hsubP : subParen y = y := subParenF_fix y.length y hnoP
      have hfold : saltForms.foldl (fun acc w => subSaltW w acc) y = y :=
        foldl_subSaltW_fix saltForms y hnoS
      have hexp : normalize_drug_name y =
          pyStrip (collapseWs (saltForms.foldl (fun acc w => subSaltW w acc)
            (pyStrip (subParen (pyStrip (pyLower y)))))) := by
        simp only [normalize_drug_name, if_neg hy]
      rw [hexp, hlow, hstr, hsubP, hstr, hfold, hcol, hstr]

end NormalizerBasics

/-- C10 witness: an exact name match whose indications are dissimilar is
rejected by the gate and leaves the empty state untouched. -/
theorem gate_rejection_leaves_claims_unchanged_witness :
    rowStep realFuzz 85
      [{ generic_normalized := S (r"abcdefgh"), trade_normalized := S (r"qqqq"),
         generic := S (r"abcdefgh"), trade := S (r"qqqq"),
         indication := S (r"Zzzz Wwww"), approval_date := [], idx := 0 }]
      ([], [])
      { drug_name := S (r"abcdefgh"), indication := S (r"Xxxxx Qqqq"),
        approval_date := [] } = ([], []) :=
  (gate_rejection_leaves_claims_unchanged realFuzz 85
    [{ generic_normalized := S (r"abcdefgh"), trade_normalized := S (r"qqqq"),
       generic := S (r"abcdefgh"), trade := S (r"qqqq"),
       indication := S (r"Zzzz Wwww"), approval_date := [], idx := 0 }]
    { drug_name := S (r"abcdefgh"), indication := S (r"Xxxxx Qqqq"), approval_date := [] }
    { fda_drug := { generic_normalized := S (r"abcdefgh"), trade_normalized := S (r"qqqq"),
                    generic := S (r"abcdefgh"), trade := S (r"qqqq"),
                    indication := S (r"Zzzz Wwww"), approval_date := [], idx := 0 },
      score := 100, match_type := S (r"generic"), matched_components := none,
      total_components := 0, component_coverage := 0,
      confidence_reason := S (r"Exact name match") }
    (by decide) (by decide) (by decide)).1 ([], [])

end DrugOverlap
